import Mathlib

/- A shallow embedding of the argument-parsing library `src/args.c` of the
   HexDmp repository.  Pure C functions become Lean functions; the mutable
   heap of `Option*` and `ArgParser*` pointers is modelled as explicit
   stores indexed by natural numbers; the fatal-error / print-and-exit
   paths are modelled with the `Outcome` type inside `Except`.
   Double-valued options are not modelled: no claim concerns them and they
   are orthogonal to the rest of the code.  Command callbacks (arbitrary
   host-code function pointers) are likewise outside the model. -/

/- ## C utility functions (args.c lines 12-90) -/

/-- UTF-8 bytes of a character: the bytes a C string holds for it. -/
def utf8Bytes (c : Char) : List Nat :=
  let n := c.toNat
  if n < 128 then [n]
  else if n < 2048 then [192 + n / 64, 128 + n % 64]
  else if n < 65536 then [224 + n / 4096, 128 + (n / 64) % 64, 128 + n % 64]
  else [240 + n / 262144, 128 + (n / 4096) % 64, 128 + (n / 64) % 64, 128 + n % 64]

/-- The bytes of a string, as the C code reads them. -/
def strBytes (s : String) : List Nat :=
  (s.toList.map utf8Bytes).flatten

/-- `str_hash`: FNV-1a over the bytes of the string, in 32-bit arithmetic. -/
def str_hash (s : String) : Nat :=
  (strBytes s).foldl (fun h b => ((h ^^^ b) * 16777619) % 4294967296) 2166136261

/-- C `isspace` for the default locale. -/
def isCSpace (c : Char) : Bool :=
  c = ' ' || c = '\t' || c = '\n' || c = '\r' || c = Char.ofNat 11 || c = Char.ofNat 12

def isOctDigit (c : Char) : Bool := '0' ≤ c && c ≤ '7'

def isHexDigitC (c : Char) : Bool :=
  c.isDigit || ('a' ≤ c && c ≤ 'f') || ('A' ≤ c && c ≤ 'F')

def hexDigitVal (c : Char) : Nat :=
  if c.isDigit then c.toNat - 48
  else if 'a' ≤ c && c ≤ 'f' then c.toNat - 87
  else c.toNat - 55

def digitsToNat (base : Nat) (ds : List Char) : Nat :=
  ds.foldl (fun acc c => acc * base + hexDigitVal c) 0

/-- `strtol(s, &endptr, 0)`: skips leading whitespace, reads an optional
    sign, auto-detects hex (`0x`)/octal (leading `0`)/decimal, and returns
    the (unclamped) value together with the unconsumed suffix; `none` when
    no conversion is performed (endptr left at the start of the string). -/
def strtol0 (s : List Char) : Option (Int × List Char) :=
  let s1 := s.dropWhile (fun c => isCSpace c)
  let sign : Int := if s1.head? = some '-' then -1 else 1
  let s2 := if s1.head? = some '-' || s1.head? = some '+' then s1.drop 1 else s1
  match s2 with
  | '0' :: x :: t =>
    if (x = 'x' || x = 'X') && (t.head?.map isHexDigitC).getD false then
      some (sign * digitsToNat 16 (t.takeWhile isHexDigitC), t.dropWhile isHexDigitC)
    else
      -- octal; this also covers a `0x` prefix not followed by a hex digit,
      -- where the subject sequence is just the leading "0"
      some (sign * digitsToNat 8 (('0' :: x :: t).takeWhile isOctDigit),
            ('0' :: x :: t).dropWhile isOctDigit)
  | _ =>
    if s2.takeWhile Char.isDigit = [] then none
    else some (sign * digitsToNat 10 (s2.takeWhile Char.isDigit),
               s2.dropWhile Char.isDigit)

/-- `try_str_to_int`: `strtol` with base 0 followed by the ERANGE check and
    the `INT_MAX`/`INT_MIN` range checks (a value outside the `long` range
    also fails these, so the combined condition is simply "outside the
    `int` range"), then the full-consumption (`*endptr`) check.  The error
    strings drop the single quotes the C format strings put around `%s`. -/
def try_str_to_int (s : String) : Except String Int :=
  match strtol0 s.toList with
  | none =>
    if s.toList = [] then .ok 0
    else .error ("cannot parse " ++ s ++ " as an integer")
  | some (v, rest) =>
    if v > 2147483647 ∨ v < -2147483648 then .error (s ++ " is out of range")
    else if rest ≠ [] then .error ("cannot parse " ++ s ++ " as an integer")
    else .ok v

/- ## Map: a linear-probing hash map (args.c lines 124-258) -/

/-- One table slot; `none` models a NULL key, i.e. an empty slot.  An
    occupied slot holds `(key, key_hash, value)`. -/
abbrev Slot (α : Type) := Option (String × Nat × α)

structure HMap (α : Type) where
  count : Nat
  capacity : Nat
  max_load_threshold : Nat
  entries : List (Slot α)
deriving DecidableEq

/-- `map_new`. -/
def map_new {α : Type} : HMap α := ⟨0, 0, 0, []⟩

/-- The probe loop of `map_find`.  The C code computes the next index as
    `(index + 1) & (capacity - 1)`, with the source's own comment noting
    this equals `(index + 1) % capacity` because capacity is a power of
    two; the model uses the modulo form.  The C loop runs forever on a
    full table with no match; since `capacity` probes visit every slot,
    fuel `capacity` is enough whenever an empty slot exists, and running
    out of fuel (`none`) models the C non-termination case. -/
def map_find_loop {α : Type} (entries : List (Slot α)) (cap : Nat)
    (key : String) (kh : Nat) : Nat → Nat → Option Nat
  | _, 0 => none
  | idx, fuel+1 =>
    match entries.get? idx with
    | none => none
    | some none => some idx
    | some (some (k, h, _)) =>
      if h = kh ∧ k = key then some idx
      else map_find_loop entries cap key kh ((idx + 1) % cap) fuel

/-- `map_find`: probes from `key_hash % capacity`. -/
def map_find {α : Type} (m : HMap α) (key : String) (kh : Nat) : Option Nat :=
  map_find_loop m.entries m.capacity key kh (kh % m.capacity) m.capacity

/-- `map_get`. -/
def map_get {α : Type} (m : HMap α) (key : String) : Option α :=
  if m.count = 0 then none
  else
    match map_find m key (str_hash key) with
    | none => none
    | some i =>
      match m.entries.get? i with
      | some (some (_, _, v)) => some v
      | _ => none

/-- The body of `map_grow`'s rehash loop for a single source slot. -/
def map_reinsert {α : Type} (m : HMap α) (s : Slot α) : HMap α :=
  match s with
  | none => m
  | some (k, kh, v) =>
    match map_find m k kh with
    | some i => { m with entries := m.entries.set i (some (k, kh, v)),
                         count := m.count + 1 }
    | none => m

/-- `map_grow`: doubles the capacity (minimum 8) and rehashes every live
    entry into the fresh table.  `max_load_threshold` is
    `new_capacity * MAP_MAX_LOAD` truncated to int, i.e. half. -/
def map_grow {α : Type} (m : HMap α) : HMap α :=
  let new_capacity := if m.capacity < 8 then 8 else m.capacity * 2
  m.entries.foldl map_reinsert
    ⟨0, new_capacity, new_capacity / 2, List.replicate new_capacity none⟩

/-- The probe-and-write phase of `map_set`: either fills the empty slot
    the probe found (new key, count incremented) or overwrites the value
    in place (existing key, keeping the stored key string and hash). -/
def map_probe_write {α : Type} (m : HMap α) (key : String) (value : α) : HMap α :=
  let kh := str_hash key
  match map_find m key kh with
  | none => m
  | some i =>
    match m.entries.get? i with
    | some none => { m with count := m.count + 1,
                            entries := m.entries.set i (some (key, kh, value)) }
    | some (some (k, h, _)) => { m with entries := m.entries.set i (some (k, h, value)) }
    | none => m

/-- `map_set`: grows first when `count == max_load_threshold`, then probes
    and writes. -/
def map_set {α : Type} (m0 : HMap α) (key : String) (value : α) : HMap α :=
  let m := if m0.count = m0.max_load_threshold then map_grow m0 else m0
  map_probe_write m key value

/-- The scan behind `strtok_r(keys, " ")`: `acc` holds the reversed
    characters of the word being read. -/
def splitWordsAux : List Char → List Char → List String
  | [], acc => if acc = [] then [] else [String.mk acc.reverse]
  | c :: cs, acc =>
    if c = ' ' then
      if acc = [] then splitWordsAux cs []
      else String.mk acc.reverse :: splitWordsAux cs []
    else splitWordsAux cs (c :: acc)

/-- The word split `strtok_r(keys, " ")` performs: space-separated words,
    with empty words (from repeated/leading/trailing separators) skipped. -/
def splitWords (s : String) : List String :=
  splitWordsAux s.toList []

/-- `map_set_splitkey`. -/
def map_set_splitkey {α : Type} (m : HMap α) (keys : String) (value : α) : HMap α :=
  (splitWords keys).foldl (fun acc k => map_set acc k value) m

/- ## Options (args.c lines 260-442) -/

inductive OptionType where
  | flag
  | strT
  | intT
deriving DecidableEq

/-- The `OptionValue` union.  Reading a member of the wrong kind is
    unspecified behaviour in C; the projections below return a default in
    that case, which no well-typed access path hits. -/
inductive OptionValue where
  | str_val (s : String)
  | int_val (i : Int)
deriving DecidableEq

instance : Inhabited OptionValue := ⟨.int_val 0⟩

def OptionValue.asInt : OptionValue → Int
  | .int_val i => i
  | _ => 0

def OptionValue.asStr : OptionValue → String
  | .str_val s => s
  | _ => ""

structure ArgOption where
  type : OptionType
  count : Nat
  values : List OptionValue
  fallback : OptionValue
deriving DecidableEq

/-- `option_new_flag`; the C code leaves a flag's fallback uninitialized
    and never reads it, modelled here as 0. -/
def option_new_flag : ArgOption := ⟨.flag, 0, [], .int_val 0⟩

def option_new_str (fb : String) : ArgOption := ⟨.strT, 0, [], .str_val fb⟩

def option_new_int (fb : Int) : ArgOption := ⟨.intT, 0, [], .int_val fb⟩

/-- `option_append_value`. -/
def option_append_value (o : ArgOption) (v : OptionValue) : ArgOption :=
  { o with values := o.values ++ [v], count := o.count + 1 }

/-- `option_try_set`: appends a value of the option's kind, running the
    strict numeric parse for integer options; does nothing for flags. -/
def option_try_set (o : ArgOption) (arg : String) : Except String ArgOption :=
  match o.type with
  | .flag => .ok o
  | .strT => .ok (option_append_value o (.str_val arg))
  | .intT =>
    match try_str_to_int arg with
    | .ok i => .ok (option_append_value o (.int_val i))
    | .error msg => .error msg

/-- `option_get_str`: `values[count-1]` when `count > 0`, else the
    fallback. -/
def option_get_str (o : ArgOption) : String :=
  if o.count > 0 then (o.values.getD (o.count - 1) default).asStr
  else o.fallback.asStr

/-- `option_get_int`. -/
def option_get_int (o : ArgOption) : Int :=
  if o.count > 0 then (o.values.getD (o.count - 1) default).asInt
  else o.fallback.asInt

/-- `option_get_str_list`: values `0 .. count-1`; the C function returns
    NULL when `count == 0`, modelled as the empty list. -/
def option_get_str_list (o : ArgOption) : List String :=
  if o.count = 0 then [] else (o.values.take o.count).map OptionValue.asStr

/-- `option_get_int_list`. -/
def option_get_int_list (o : ArgOption) : List Int :=
  if o.count = 0 then [] else (o.values.take o.count).map OptionValue.asInt

/- ## ArgParser: data model (args.c lines 444-522) -/

/-- `struct ArgParser`.  `Option*` and child `ArgParser*` pointers are
    modelled as indices into the stores of `APState`; the callback field
    (a host-code function pointer) is not modelled. -/
structure ArgParser where
  helptext : Option String
  version : Option String
  option_vec : List Nat
  option_map : HMap Nat
  command_vec : List Nat
  command_map : HMap Nat
  positional_args : List String
  cmd_name : Option String
  cmd_parser_id : Option Nat
  cmd_help : Bool
deriving DecidableEq

/-- `ap_new` (the per-parser initialisation). -/
def ap_parser_init : ArgParser :=
  ⟨none, none, [], map_new, [], map_new, [], none, none, false⟩

/-- The heap: every allocated option and every allocated parser. -/
structure APState where
  options : List ArgOption
  parsers : List ArgParser
deriving DecidableEq

/-- A fresh heap holding one root parser, with id 0. -/
def apRoot : APState := ⟨[], [ap_parser_init]⟩

def modifyAt {α : Type} : List α → Nat → (α → α) → List α
  | [], _, _ => []
  | a :: l, 0, f => f a :: l
  | a :: l, n+1, f => a :: modifyAt l n f

/-- Dereference an `ArgParser*`. -/
def APState.parser (st : APState) (pid : Nat) : ArgParser :=
  st.parsers.getD pid ap_parser_init

/-- Dereference an `Option*`. -/
def APState.opt (st : APState) (oid : Nat) : ArgOption :=
  st.options.getD oid option_new_flag

def APState.modifyParser (st : APState) (pid : Nat) (f : ArgParser → ArgParser) : APState :=
  { st with parsers := modifyAt st.parsers pid f }

def APState.setOpt (st : APState) (oid : Nat) (o : ArgOption) : APState :=
  { st with options := modifyAt st.options oid (fun _ => o) }

def APState.modifyOpt (st : APState) (oid : Nat) (f : ArgOption → ArgOption) : APState :=
  { st with options := modifyAt st.options oid f }

/- ## ArgParser: registration (args.c lines 524-564, 683-711) -/

/-- Shared body of the four registration functions: allocate the option,
    append it to `option_vec`, bind every alias word in `option_map`. -/
def ap_register_opt (st : APState) (pid : Nat) (name : String) (o : ArgOption) : APState :=
  let oid := st.options.length
  let st1 : APState := { st with options := st.options ++ [o] }
  st1.modifyParser pid (fun p =>
    { p with option_vec := p.option_vec ++ [oid],
             option_map := map_set_splitkey p.option_map name oid })

/-- `ap_flag`. -/
def ap_flag (st : APState) (pid : Nat) (name : String) : APState :=
  ap_register_opt st pid name option_new_flag

/-- `ap_str_opt`. -/
def ap_str_opt (st : APState) (pid : Nat) (name : String) (fallback : String) : APState :=
  ap_register_opt st pid name (option_new_str fallback)

/-- `ap_int_opt`. -/
def ap_int_opt (st : APState) (pid : Nat) (name : String) (fallback : Int) : APState :=
  ap_register_opt st pid name (option_new_int fallback)

/-- `ap_helptext`. -/
def ap_helptext (st : APState) (pid : Nat) (text : String) : APState :=
  st.modifyParser pid (fun p => { p with helptext := some text })

/-- `ap_version`. -/
def ap_version (st : APState) (pid : Nat) (text : String) : APState :=
  st.modifyParser pid (fun p => { p with version := some text })

/-- `ap_cmd`: enables the automatic help command on the parent, allocates
    a child parser, appends it to `command_vec` and binds every alias word
    in `command_map`; returns the child's id. -/
def ap_cmd (st : APState) (pid : Nat) (name : String) : APState × Nat :=
  let cid := st.parsers.length
  let st1 := st.modifyParser pid (fun p => { p with cmd_help := true })
  let st2 : APState := { st1 with parsers := st1.parsers ++ [ap_parser_init] }
  let st3 := st2.modifyParser pid (fun p =>
    { p with command_vec := p.command_vec ++ [cid],
             command_map := map_set_splitkey p.command_map name cid })
  (st3, cid)

/- ## ArgParser: queries (args.c lines 566-681, 700-708) -/

/-- A modelled process exit: `fatal msg` is `err(msg)` (print to stderr,
    exit 1); `quit text` is a help/version print followed by `exit(0)`. -/
inductive Outcome where
  | fatal (msg : String)
  | quit (output : String)
deriving DecidableEq

/-- `ap_get_opt` (exits when the name is not registered). -/
def ap_get_opt (st : APState) (pid : Nat) (name : String) : Except Outcome ArgOption :=
  match map_get (st.parser pid).option_map name with
  | some oid => .ok (st.opt oid)
  | none => .error (.fatal (name ++ " is not a registered flag or option name"))

/-- `ap_count`. -/
def ap_count (st : APState) (pid : Nat) (name : String) : Except Outcome Nat :=
  (ap_get_opt st pid name).map (fun o => o.count)

/-- `ap_found`. -/
def ap_found (st : APState) (pid : Nat) (name : String) : Except Outcome Bool :=
  (ap_get_opt st pid name).map (fun o => decide (0 < o.count))

/-- `ap_str_value`. -/
def ap_str_value (st : APState) (pid : Nat) (name : String) : Except Outcome String :=
  (ap_get_opt st pid name).map option_get_str

/-- `ap_int_value`. -/
def ap_int_value (st : APState) (pid : Nat) (name : String) : Except Outcome Int :=
  (ap_get_opt st pid name).map option_get_int

/-- `ap_str_values`. -/
def ap_str_values (st : APState) (pid : Nat) (name : String) : Except Outcome (List String) :=
  (ap_get_opt st pid name).map option_get_str_list

/-- `ap_int_values`. -/
def ap_int_values (st : APState) (pid : Nat) (name : String) : Except Outcome (List Int) :=
  (ap_get_opt st pid name).map option_get_int_list

/-- `ap_has_args`. -/
def ap_has_args (st : APState) (pid : Nat) : Bool :=
  decide (0 < (st.parser pid).positional_args.length)

/-- `ap_count_args`. -/
def ap_count_args (st : APState) (pid : Nat) : Nat :=
  (st.parser pid).positional_args.length

/-- `ap_arg`. -/
def ap_arg (st : APState) (pid : Nat) (index : Nat) : String :=
  (st.parser pid).positional_args.getD index ""

/-- `ap_args`. -/
def ap_args (st : APState) (pid : Nat) : List String :=
  (st.parser pid).positional_args

/-- `ap_has_cmd`. -/
def ap_has_cmd (st : APState) (pid : Nat) : Bool :=
  (st.parser pid).cmd_name.isSome

/-- `ap_cmd_name`. -/
def ap_cmd_name (st : APState) (pid : Nat) : Option String :=
  (st.parser pid).cmd_name

/-- `ap_cmd_parser_id`. -/
def ap_cmd_parser_id (st : APState) (pid : Nat) : Option Nat :=
  (st.parser pid).cmd_parser_id

/- ## ArgParser: parsing (args.c lines 713-875) -/

/-- `ap_handle_equals_opt`: splits at the first `=`; an unknown name or a
    flag-kind option is "not a recognised option name" (checked first), an
    empty value is "missing value"; otherwise the value is appended. -/
def ap_handle_equals_opt (st : APState) (pid : Nat) (pfx : String) (arg : String) :
    Except Outcome APState :=
  let name := String.mk (arg.toList.takeWhile (fun c => c ≠ '='))
  let value := String.mk ((arg.toList.dropWhile (fun c => c ≠ '=')).drop 1)
  match map_get (st.parser pid).option_map name with
  | none => .error (.fatal (pfx ++ name ++ " is not a recognised option name"))
  | some oid =>
    if (st.opt oid).type = .flag then
      .error (.fatal (pfx ++ name ++ " is not a recognised option name"))
    else if value = "" then
      .error (.fatal ("missing value for the " ++ pfx ++ name ++ " option"))
    else
      match option_try_set (st.opt oid) value with
      | .ok o => .ok (st.setOpt oid o)
      | .error msg => .error (.fatal msg)

/-- `ap_handle_long_opt` (`arg` is the text after the `--`); returns the
    new state and the stream left after any value consumption. -/
def ap_handle_long_opt (st : APState) (pid : Nat) (arg : String)
    (rest : List String) : Except Outcome (APState × List String) :=
  match map_get (st.parser pid).option_map arg with
  | some oid =>
    if (st.opt oid).type = .flag then
      .ok (st.modifyOpt oid (fun o => { o with count := o.count + 1 }), rest)
    else
      match rest with
      | v :: rest' =>
        match option_try_set (st.opt oid) v with
        | .ok o => .ok (st.setOpt oid o, rest')
        | .error msg => .error (.fatal msg)
      | [] => .error (.fatal ("missing argument for the --" ++ arg ++ " option"))
  | none =>
    if arg = "help" ∧ (st.parser pid).helptext.isSome then
      .error (.quit ((st.parser pid).helptext.getD ""))
    else if arg = "version" ∧ (st.parser pid).version.isSome then
      .error (.quit ((st.parser pid).version.getD ""))
    else
      .error (.fatal ("--" ++ arg ++ " is not a recognised flag or option name"))

/-- The character loop of `ap_handle_short_opt`: every character of the
    cluster is looked up as its own one-character key; a value-kind match
    consumes the next stream token; error phrasing depends on whether the
    cluster is longer than one character. -/
def ap_handle_short_loop (pid : Nat) (full : String) :
    APState → List Char → List String → Except Outcome (APState × List String)
  | st, [], rest => .ok (st, rest)
  | st, c :: cs, rest =>
    match map_get (st.parser pid).option_map (String.mk [c]) with
    | none =>
      if c = 'h' ∧ (st.parser pid).helptext.isSome then
        .error (.quit ((st.parser pid).helptext.getD ""))
      else if c = 'v' ∧ (st.parser pid).version.isSome then
        .error (.quit ((st.parser pid).version.getD ""))
      else if 1 < full.toList.length then
        .error (.fatal (String.mk [c] ++ " in -" ++ full ++
          " is not a recognised flag or option name"))
      else
        .error (.fatal ("-" ++ full ++ " is not a recognised flag or option name"))
    | some oid =>
      if (st.opt oid).type = .flag then
        ap_handle_short_loop pid full
          (st.modifyOpt oid (fun o => { o with count := o.count + 1 })) cs rest
      else
        match rest with
        | v :: rest' =>
          match option_try_set (st.opt oid) v with
          | .ok o => ap_handle_short_loop pid full (st.setOpt oid o) cs rest'
          | .error msg => .error (.fatal msg)
        | [] =>
          if 1 < full.toList.length then
            .error (.fatal ("missing argument for the " ++ String.mk [c] ++
              " option in -" ++ full))
          else
            .error (.fatal ("missing argument for the -" ++ full ++ " option"))

/-- `ap_handle_short_opt` (`arg` is the text after the `-`). -/
def ap_handle_short_opt (st : APState) (pid : Nat) (arg : String)
    (rest : List String) : Except Outcome (APState × List String) :=
  ap_handle_short_loop pid arg st arg.toList rest

/-- Appends a token to a parser's positional arguments. -/
def pushPositional (st : APState) (pid : Nat) (arg : String) : APState :=
  st.modifyParser pid (fun p => { p with positional_args := p.positional_args ++ [arg] })

/-- `ap_parse_stream`.  One fuel unit is spent per loop iteration, and
    every iteration consumes at least one token, so fuel `args.length`
    always suffices; `none` is the out-of-fuel result, which a sufficient
    budget never produces.  The branches mirror the C chain in order:
    bare `--`; long form (with or without `=`); single-dash forms (lone
    `-` or `-<digit>` as positional, then `=`-form, then the cluster
    loop); first-token command match (recursing into the child on the
    same remaining stream); the automatic `help <command>`; positional. -/
def ap_parse_stream :
    Nat → APState → Nat → Bool → List String → Option (Except Outcome APState)
  | _, st, _, _, [] => some (.ok st)
  | 0, _, _, _, _ :: _ => none
  | fuel+1, st, pid, is_first, arg :: rest =>
    if arg.toList = ['-', '-'] then
      some (.ok (st.modifyParser pid
        (fun p => { p with positional_args := p.positional_args ++ rest })))
    else if arg.toList.take 2 = ['-', '-'] then
      if arg.toList.contains '=' then
        match ap_handle_equals_opt st pid "--" (String.mk (arg.toList.drop 2)) with
        | .ok st' => ap_parse_stream fuel st' pid false rest
        | .error e => some (.error e)
      else
        match ap_handle_long_opt st pid (String.mk (arg.toList.drop 2)) rest with
        | .ok (st', rest') => ap_parse_stream fuel st' pid false rest'
        | .error e => some (.error e)
    else if arg.toList.take 1 = ['-'] then
      if arg.toList.length = 1 ∨ (arg.toList.getD 1 ' ').isDigit then
        ap_parse_stream fuel (pushPositional st pid arg) pid false rest
      else if arg.toList.contains '=' then
        match ap_handle_equals_opt st pid "-" (String.mk (arg.toList.drop 1)) with
        | .ok st' => ap_parse_stream fuel st' pid false rest
        | .error e => some (.error e)
      else
        match ap_handle_short_opt st pid (String.mk (arg.toList.drop 1)) rest with
        | .ok (st', rest') => ap_parse_stream fuel st' pid false rest'
        | .error e => some (.error e)
    else
      match is_first, map_get (st.parser pid).command_map arg with
      | true, some cid =>
        let st' := st.modifyParser pid
          (fun p => { p with cmd_name := some arg, cmd_parser_id := some cid })
        ap_parse_stream fuel st' cid true rest
      | true, none =>
        if (st.parser pid).cmd_help ∧ arg = "help" then
          match rest with
          | name :: _ =>
            match map_get (st.parser pid).command_map name with
            | some cid => some (.error (.quit ((st.parser cid).helptext.getD "")))
            | none => some (.error (.fatal (name ++ " is not a recognised command")))
          | [] => some (.error (.fatal "the help command requires an argument"))
        else
          ap_parse_stream fuel (pushPositional st pid arg) pid false rest
      | false, _ =>
        ap_parse_stream fuel (pushPositional st pid arg) pid false rest

/-- `ap_parse_array`: parse a token list against parser `pid`. -/
def ap_parse_array (st : APState) (pid : Nat) (args : List String) :
    Option (Except Outcome APState) :=
  ap_parse_stream args.length st pid true args

/- ## Verification layer for the hash map -/

/-- Number of occupied slots of a table. -/
def occCount {α : Type} (entries : List (Slot α)) : Nat :=
  entries.countP (fun s => s.isSome)

/-- The map associates `v` to `k`: some slot holds them. -/
def mapsTo {α : Type} (m : HMap α) (k : String) (v : α) : Prop :=
  ∃ i kh, m.entries.get? i = some (some (k, kh, v))

/-- The map holds some binding for `k`. -/
def hasKey {α : Type} (m : HMap α) (k : String) : Prop :=
  ∃ i kh v, m.entries.get? i = some (some (k, kh, v))

/-- The `j`-th slot index on the probe path that starts at `home`. -/
def probePos (cap home j : Nat) : Nat := (home + j) % cap

/-- How many probe steps lead from `home` to slot `i` (with wraparound). -/
def distTo (cap home i : Nat) : Nat := (cap + i - home) % cap

/-- Does the probe loop stop at this slot for the given key and hash?
    It stops on an empty slot or on a hash-and-key match. -/
def isStopB {α : Type} (key : String) (kh : Nat) : Slot α → Bool
  | none => true
  | some (k, h, _) => decide (h = kh) && decide (k = key)

def stopAt {α : Type} (entries : List (Slot α)) (key : String) (kh : Nat) (i : Nat) : Bool :=
  match entries.get? i with
  | some s => isStopB key kh s
  | none => false

/-- The linear-probing invariant of a non-empty table, as maintained by
    `map_set`/`map_grow`: power-of-two capacity of at least 8, the cached
    count/threshold fields agree with the table, the load stays at or
    below one half, every stored hash is the hash of its key, keys are
    stored at most once, and every occupied slot is reachable from its
    hash's home slot through occupied slots only. -/
structure MapInv {α : Type} (m : HMap α) : Prop where
  cap_pow : ∃ t, 3 ≤ t ∧ m.capacity = 2 ^ t
  len_eq : m.entries.length = m.capacity
  thresh : m.max_load_threshold = m.capacity / 2
  count_eq : m.count = occCount m.entries
  load : 2 * m.count ≤ m.capacity
  hash_ok : ∀ i k kh v, m.entries.get? i = some (some (k, kh, v)) → kh = str_hash k
  keys_distinct : ∀ i j k kh v kh' v', m.entries.get? i = some (some (k, kh, v)) →
    m.entries.get? j = some (some (k, kh', v')) → i = j
  probe_ok : ∀ i k kh v, m.entries.get? i = some (some (k, kh, v)) →
    ∀ j, j < distTo m.capacity (kh % m.capacity) i →
      ∃ s, m.entries.get? (probePos m.capacity (kh % m.capacity) j) = some (some s)

/-- States a map can be in: freshly created, or satisfying the probing
    invariant. -/
def MapWf {α : Type} (m : HMap α) : Prop := m = map_new ∨ MapInv m

/- ## Concrete scenario states used by the claims -/

/-- Parser with the command `run` whose sub-parser accepts flag `fast`:
    the setup of the spec's command-terminality example. -/
def cmdExSetup : APState × Nat := ap_cmd apRoot 0 "run"

def cmdExSt : APState := ap_flag cmdExSetup.1 cmdExSetup.2 "fast"

/-- Parser with an integer option `n` with fallback 0: the setup of the
    spec's round-trip example. -/
def intExSt : APState := ap_int_opt apRoot 0 "n" 0

/-- Parser with a flag aliased `v verbose`: the alias-sharing example. -/
def aliasExSt : APState := ap_flag apRoot 0 "v verbose"

/-- Parser with a string option `o` and a flag `f`: the equals-form
    examples. -/
def eqExSt : APState := ap_flag (ap_str_opt apRoot 0 "o" "dflt") 0 "f"

/-- Four distinct keys inserted into a fresh map: fills the capacity-8
    table to exactly half. -/
def halfFullMap : HMap Nat :=
  (["a", "b", "c", "d"]).foldl (fun m k => map_set m k 0) map_new

/-- Nine distinct keys inserted into a fresh map: crosses the grow
    boundaries at capacity 8 and 16. -/
def nineKeyPairs : List (String × Nat) :=
  (List.range 9).map (fun i => (toString i, i))

def nineKeyMap : HMap Nat :=
  nineKeyPairs.foldl (fun m q => map_set m q.1 q.2) map_new

deriving instance DecidableEq for Except

/-- Run a parse and observe the resulting state through `f`; exits pass
    through, and `none` is the (never reached) out-of-fuel result. -/
def parseThen {β : Type} (st : APState) (pid : Nat) (args : List String)
    (f : APState → β) : Option (Except Outcome β) :=
  (ap_parse_array st pid args).map (Except.map f)

/-- Occupancy of a table index. -/
def occAt {α : Type} (entries : List (Slot α)) (i : Nat) : Prop :=
  ∃ s, entries.get? i = some (some s)

/- ## Probe-path geometry -/

theorem probePos_lt {cap home j : Nat} (hc : 0 < cap) : probePos cap home j < cap :=
  Nat.mod_lt _ hc

theorem distTo_lt (cap home i : Nat) (hc : 0 < cap) : distTo cap home i < cap :=
  Nat.mod_lt _ hc

theorem probePos_zero {cap home : Nat} (hh : home < cap) : probePos cap home 0 = home := by
  unfold probePos
  simp [Nat.mod_eq_of_lt hh]

theorem probePos_distTo {cap home i : Nat} (hh : home < cap) (hi : i < cap) :
    probePos cap home (distTo cap home i) = i := by
  unfold probePos distTo
  rw [Nat.add_mod_mod]
  have h1 : home + (cap + i - home) = cap + i := by omega
  rw [h1, Nat.add_mod_left, Nat.mod_eq_of_lt hi]

theorem distTo_probePos {cap home j : Nat} (hh : home < cap) (hj : j < cap) :
    distTo cap home (probePos cap home j) = j := by
  unfold probePos distTo
  rcases Nat.lt_or_ge (home + j) cap with h | h
  · rw [Nat.mod_eq_of_lt h]
    have h1 : cap + (home + j) - home = cap + j := by omega
    rw [h1, Nat.add_mod_left, Nat.mod_eq_of_lt hj]
  · have hlt : home + j - cap < cap := by omega
    have h2 : (home + j) % cap = home + j - cap := by
      rw [Nat.mod_eq_sub_mod h, Nat.mod_eq_of_lt hlt]
    rw [h2]
    have h3 : cap + (home + j - cap) - home = j := by omega
    rw [h3, Nat.mod_eq_of_lt hj]

theorem probePos_step {cap start j : Nat} :
    probePos cap ((start + 1) % cap) j = probePos cap start (j + 1) := by
  unfold probePos
  rw [Nat.mod_add_mod]
  congr 1
  omega

/- ## The probe loop finds the first stopping slot -/

theorem map_find_loop_step {α : Type} (entries : List (Slot α)) (cap : Nat)
    (key : String) (kh idx f : Nat) :
    map_find_loop entries cap key kh idx (f + 1) =
      match entries.get? idx with
      | none => none
      | some none => some idx
      | some (some (k, h, _)) =>
        if h = kh ∧ k = key then some idx
        else map_find_loop entries cap key kh ((idx + 1) % cap) f := rfl

theorem stopAt_of_get? {α : Type} {entries : List (Slot α)} {i : Nat} {s : Slot α}
    (hs : entries.get? i = some s) (key : String) (kh : Nat) :
    stopAt entries key kh i = isStopB key kh s := by
  unfold stopAt
  rw [hs]

theorem map_find_loop_eq {α : Type} (entries : List (Slot α)) (cap : Nat)
    (key : String) (kh : Nat) (hlen : entries.length = cap) :
    ∀ (fuel j start : Nat), j < fuel → start < cap →
      stopAt entries key kh (probePos cap start j) = true →
      (∀ j' < j, stopAt entries key kh (probePos cap start j') = false) →
      map_find_loop entries cap key kh start fuel = some (probePos cap start j) := by
  intro fuel
  induction fuel with
  | zero => intro j start hj; omega
  | succ f ih =>
    intro j start hj hstart hstop hmin
    have hc : 0 < cap := by omega
    have hs : ∃ s, entries.get? start = some s := by
      have hlt : start < entries.length := by omega
      exact ⟨entries.get ⟨start, hlt⟩, List.get?_eq_get hlt⟩
    obtain ⟨s, hs⟩ := hs
    cases j with
    | zero =>
      rw [probePos_zero hstart] at hstop ⊢
      rw [stopAt_of_get? hs] at hstop
      simp only [map_find_loop_step, hs]
      cases s with
      | none => rfl
      | some triple =>
        obtain ⟨k, h, v⟩ := triple
        simp only [isStopB, Bool.and_eq_true, decide_eq_true_eq] at hstop
        show (if h = kh ∧ k = key then some start
          else map_find_loop entries cap key kh ((start + 1) % cap) f) = some start
        rw [if_pos hstop]
    | succ j' =>
      have h0 : stopAt entries key kh (probePos cap start 0) = false :=
        hmin 0 (Nat.succ_pos _)
      rw [probePos_zero hstart, stopAt_of_get? hs] at h0
      cases s with
      | none => simp [isStopB] at h0
      | some triple =>
        obtain ⟨k, h, v⟩ := triple
        simp only [isStopB, Bool.and_eq_false_iff, decide_eq_false_iff_not] at h0
        have hcond : ¬(h = kh ∧ k = key) := by
          intro hx
          rcases h0 with h0 | h0
          · exact h0 hx.1
          · exact h0 hx.2
        simp only [map_find_loop_step, hs]
        show (if h = kh ∧ k = key then some start
          else map_find_loop entries cap key kh ((start + 1) % cap) f) =
            some (probePos cap start (j' + 1))
        rw [if_neg hcond, ← probePos_step]
        apply ih j' ((start + 1) % cap) (by omega) (Nat.mod_lt _ hc)
        · rw [probePos_step]
          exact hstop
        · intro j'' hj''
          rw [probePos_step]
          exact hmin (j'' + 1) (by omega)

theorem map_find_eq {α : Type} (m : HMap α) (key : String) (kh : Nat)
    (hlen : m.entries.length = m.capacity) (j : Nat) (hj : j < m.capacity)
    (hstop : stopAt m.entries key kh (probePos m.capacity (kh % m.capacity) j) = true)
    (hmin : ∀ j' < j,
      stopAt m.entries key kh (probePos m.capacity (kh % m.capacity) j') = false) :
    map_find m key kh = some (probePos m.capacity (kh % m.capacity) j) := by
  have hc : 0 < m.capacity := by omega
  exact map_find_loop_eq m.entries m.capacity key kh hlen m.capacity j
    (kh % m.capacity) hj (Nat.mod_lt _ hc) hstop hmin

/- ## map_find under the invariant -/

theorem occCount_lt_exists_none {α : Type} {entries : List (Slot α)}
    (h : occCount entries < entries.length) :
    ∃ i, entries.get? i = some none := by
  by_contra hno
  push_neg at hno
  have hall : ∀ s ∈ entries, s.isSome = true := by
    intro s hmem
    obtain ⟨n, hn⟩ := List.mem_iff_get?.1 hmem
    cases s with
    | none => exact absurd hn (hno n)
    | some _ => rfl
  have hlen : List.countP (fun s : Slot α => s.isSome) entries = entries.length :=
    List.countP_eq_length.2 hall
  unfold occCount at h
  omega

theorem get?_isSome_of_lt {α : Type} (entries : List (Slot α)) (i : Nat)
    (h : i < entries.length) : ∃ s, entries.get? i = some s :=
  ⟨entries.get ⟨i, h⟩, List.get?_eq_get h⟩

/-- When slot `i` holds `(k, kh, v)`, the probe for `k` with hash `kh`
    returns exactly `i`. -/
theorem map_find_present {α : Type} {m : HMap α} (inv : MapInv m)
    {i : Nat} {k : String} {kh : Nat} {v : α}
    (hi : m.entries.get? i = some (some (k, kh, v))) :
    map_find m k kh = some i := by
  obtain ⟨t, _ht3, hcap⟩ := inv.cap_pow
  have hc : 0 < m.capacity := by
    rw [hcap]; exact Nat.pos_pow_of_pos t (by omega)
  have hilen : i < m.entries.length := by
    by_contra hx
    rw [List.get?_eq_none.2 (by omega)] at hi
    cases hi
  have hicap : i < m.capacity := inv.len_eq ▸ hilen
  have hhlt : kh % m.capacity < m.capacity := Nat.mod_lt _ hc
  have hpp : probePos m.capacity (kh % m.capacity) (distTo m.capacity (kh % m.capacity) i) = i :=
    probePos_distTo hhlt hicap
  have hstop : stopAt m.entries k kh
      (probePos m.capacity (kh % m.capacity) (distTo m.capacity (kh % m.capacity) i)) = true := by
    rw [hpp, stopAt_of_get? hi]
    simp [isStopB]
  have hmin : ∀ j' < distTo m.capacity (kh % m.capacity) i,
      stopAt m.entries k kh (probePos m.capacity (kh % m.capacity) j') = false := by
    intro j' hj'
    obtain ⟨⟨k', kh', v'⟩, hs'⟩ := inv.probe_ok i k kh v hi j' hj'
    rw [stopAt_of_get? hs']
    simp only [isStopB, Bool.and_eq_false_iff, decide_eq_false_iff_not]
    by_contra hx
    push_neg at hx
    obtain ⟨-, hk'⟩ := hx
    subst hk'
    have heq : probePos m.capacity (kh % m.capacity) j' = i :=
      inv.keys_distinct _ _ _ _ _ _ _ hs' hi
    have hj'cap : j' < m.capacity := lt_trans hj' (distTo_lt _ _ _ hc)
    have := distTo_probePos hhlt hj'cap
    rw [heq] at this
    omega
  have := map_find_eq m k kh inv.len_eq (distTo m.capacity (kh % m.capacity) i)
    (distTo_lt _ _ _ hc) hstop hmin
  rw [hpp] at this
  exact this

/-- When no slot holds `key` and the table has a free slot, the probe
    returns the first empty slot on the path, with every earlier path
    slot occupied. -/
theorem map_find_absent {α : Type} {m : HMap α} (inv : MapInv m)
    {key : String} (kh : Nat)
    (habs : ∀ i k' kh' v', m.entries.get? i = some (some (k', kh', v')) → k' ≠ key)
    (hroom : occCount m.entries < m.capacity) :
    ∃ i, map_find m key kh = some i ∧ m.entries.get? i = some none ∧
      ∀ j < distTo m.capacity (kh % m.capacity) i,
        occAt m.entries (probePos m.capacity (kh % m.capacity) j) := by
  obtain ⟨t, _ht3, hcap⟩ := inv.cap_pow
  have hc : 0 < m.capacity := by
    rw [hcap]; exact Nat.pos_pow_of_pos t (by omega)
  have hhlt : kh % m.capacity < m.capacity := Nat.mod_lt _ hc
  obtain ⟨ie, hie⟩ := occCount_lt_exists_none (by rw [inv.len_eq]; exact hroom)
  have hielen : ie < m.entries.length := by
    by_contra hx
    rw [List.get?_eq_none.2 (by omega)] at hie
    cases hie
  have hiecap : ie < m.capacity := inv.len_eq ▸ hielen
  have hex : ∃ j, stopAt m.entries key kh (probePos m.capacity (kh % m.capacity) j) = true := by
    refine ⟨distTo m.capacity (kh % m.capacity) ie, ?_⟩
    rw [probePos_distTo hhlt hiecap, stopAt_of_get? hie]
    rfl
  let j0 := Nat.find hex
  have hstop0 : stopAt m.entries key kh (probePos m.capacity (kh % m.capacity) j0) = true :=
    Nat.find_spec hex
  have hmin0 : ∀ j' < j0,
      stopAt m.entries key kh (probePos m.capacity (kh % m.capacity) j') = false := by
    intro j' hj'
    have := Nat.find_min hex hj'
    exact Bool.eq_false_iff.2 this
  have hj0cap : j0 < m.capacity := by
    have : j0 ≤ distTo m.capacity (kh % m.capacity) ie := Nat.find_min' hex (by
      rw [probePos_distTo hhlt hiecap, stopAt_of_get? hie]
      rfl)
    have := distTo_lt m.capacity (kh % m.capacity) ie hc
    omega
  set i := probePos m.capacity (kh % m.capacity) j0 with hidef
  have hicap : i < m.capacity := probePos_lt hc
  obtain ⟨s, hsi⟩ := get?_isSome_of_lt m.entries i
    (by rw [inv.len_eq]; exact hicap)
  have hsnone : s = none := by
    cases s with
    | none => rfl
    | some triple =>
      obtain ⟨k', kh', v'⟩ := triple
      rw [stopAt_of_get? hsi] at hstop0
      simp only [isStopB, Bool.and_eq_true, decide_eq_true_eq] at hstop0
      exact absurd hstop0.2 (habs _ _ _ _ hsi)
  subst hsnone
  refine ⟨i, ?_, hsi, ?_⟩
  · have := map_find_eq m key kh inv.len_eq j0 hj0cap hstop0 hmin0
    rw [← hidef] at this
    have hd : distTo m.capacity (kh % m.capacity) i = j0 := by
      rw [hidef]
      exact distTo_probePos hhlt hj0cap
    exact this
  · have hd : distTo m.capacity (kh % m.capacity) i = j0 := by
      rw [hidef]
      exact distTo_probePos hhlt hj0cap
    intro j hj
    rw [hd] at hj
    have hfalse := hmin0 j hj
    obtain ⟨s', hs'⟩ := get?_isSome_of_lt m.entries
      (probePos m.capacity (kh % m.capacity) j)
      (by rw [inv.len_eq]; exact probePos_lt hc)
    cases s' with
    | none =>
      rw [stopAt_of_get? hs'] at hfalse
      simp [isStopB] at hfalse
    | some triple => exact ⟨triple, hs'⟩

/- ## Small facts about the invariant and slot updates -/

theorem MapInv.cap_ge_8 {α : Type} {m : HMap α} (inv : MapInv m) : 8 ≤ m.capacity := by
  obtain ⟨t, ht3, hcap⟩ := inv.cap_pow
  have h : (2 : Nat) ^ 3 ≤ 2 ^ t := Nat.pow_le_pow_right (by omega) ht3
  rw [hcap]
  omega

theorem MapInv.cap_pos {α : Type} {m : HMap α} (inv : MapInv m) : 0 < m.capacity := by
  have := inv.cap_ge_8
  omega

theorem MapInv.room {α : Type} {m : HMap α} (inv : MapInv m) :
    occCount m.entries < m.capacity := by
  have h1 := inv.load
  have h2 := inv.count_eq
  have h3 := inv.cap_ge_8
  omega

theorem lt_length_of_get? {β : Type} {l : List β} {i : Nat} {b : β}
    (h : l.get? i = some b) : i < l.length := by
  by_contra hx
  rw [List.get?_eq_none.2 (by omega)] at h
  cases h

theorem occCount_set_of_none {α : Type} {entries : List (Slot α)} {i : Nat}
    (h : entries.get? i = some none) (x : String × Nat × α) :
    occCount (entries.set i (some x)) = occCount entries + 1 := by
  induction entries generalizing i with
  | nil => cases h
  | cons a l ih =>
    cases i with
    | zero =>
      cases h
      simp [occCount, List.countP_cons]
    | succ n =>
      have := ih (i := n) h
      simp only [List.set, occCount, List.countP_cons] at *
      omega

theorem occCount_set_of_some {α : Type} {entries : List (Slot α)} {i : Nat}
    {y : String × Nat × α} (h : entries.get? i = some (some y)) (x : String × Nat × α) :
    occCount (entries.set i (some x)) = occCount entries := by
  induction entries generalizing i with
  | nil => cases h
  | cons a l ih =>
    cases i with
    | zero =>
      cases h
      simp [occCount, List.countP_cons]
    | succ n =>
      have := ih (i := n) h
      simp only [List.set, occCount, List.countP_cons] at *
      omega

theorem occAt_set {α : Type} {entries : List (Slot α)} {i p : Nat}
    (hi : i < entries.length) (x : String × Nat × α)
    (h : occAt entries p ∨ p = i) : occAt (entries.set i (some x)) p := by
  by_cases hpi : p = i
  · subst hpi
    exact ⟨x, List.get?_set_eq_of_lt _ hi⟩
  · rcases h with h | h
    · obtain ⟨s, hs⟩ := h
      exact ⟨s, by rw [List.get?_set_ne _ _ (fun hx => hpi hx.symm)]; exact hs⟩
    · exact absurd h hpi

/- ## Writing into the slot the probe returned -/

/-- Filling the first empty slot on a key's probe path with that key
    preserves the probing invariant. -/
theorem map_insert_inv {α : Type} {m : HMap α} (inv : MapInv m)
    {i : Nat} {key : String} {kh : Nat} {v : α}
    (hkh : kh = str_hash key)
    (hempty : m.entries.get? i = some none)
    (hpath : ∀ j < distTo m.capacity (kh % m.capacity) i,
      occAt m.entries (probePos m.capacity (kh % m.capacity) j))
    (habs : ∀ i' k' kh' v', m.entries.get? i' = some (some (k', kh', v')) → k' ≠ key)
    (hload : 2 * (m.count + 1) ≤ m.capacity) :
    MapInv (⟨m.count + 1, m.capacity, m.max_load_threshold,
      m.entries.set i (some (key, kh, v))⟩ : HMap α) := by
  have hilen : i < m.entries.length := lt_length_of_get? hempty
  refine ⟨inv.cap_pow, ?_, inv.thresh, ?_, hload, ?_, ?_, ?_⟩
  · simpa [List.length_set] using inv.len_eq
  · show m.count + 1 = occCount (m.entries.set i (some (key, kh, v)))
    rw [occCount_set_of_none hempty, inv.count_eq]
  · -- hash_ok
    intro i' k' kh' v' h'
    by_cases hii : i' = i
    · subst hii
      rw [List.get?_set_eq_of_lt _ hilen] at h'
      cases h'
      exact hkh
    · rw [List.get?_set_ne _ _ (fun hx => hii hx.symm)] at h'
      exact inv.hash_ok i' k' kh' v' h'
  · -- keys_distinct
    intro i1 i2 k0 kh1 v1 kh2 v2 h1 h2
    by_cases hi1 : i1 = i <;> by_cases hi2 : i2 = i
    · rw [hi1, hi2]
    · subst hi1
      rw [List.get?_set_eq_of_lt _ hilen] at h1
      cases h1
      rw [List.get?_set_ne _ _ (fun hx => hi2 hx.symm)] at h2
      exact absurd rfl (habs i2 _ _ _ h2)
    · subst hi2
      rw [List.get?_set_eq_of_lt _ hilen] at h2
      cases h2
      rw [List.get?_set_ne _ _ (fun hx => hi1 hx.symm)] at h1
      exact absurd rfl (habs i1 _ _ _ h1)
    · rw [List.get?_set_ne _ _ (fun hx => hi1 hx.symm)] at h1
      rw [List.get?_set_ne _ _ (fun hx => hi2 hx.symm)] at h2
      exact inv.keys_distinct i1 i2 k0 kh1 v1 kh2 v2 h1 h2
  · -- probe_ok
    intro i' k' kh' v' h' j hj
    by_cases hii : i' = i
    · subst hii
      rw [List.get?_set_eq_of_lt _ hilen] at h'
      cases h'
      exact occAt_set hilen _ (Or.inl (hpath j hj))
    · rw [List.get?_set_ne _ _ (fun hx => hii hx.symm)] at h'
      exact occAt_set hilen _ (Or.inl (inv.probe_ok i' k' kh' v' h' j hj))

/- ## map_get through the invariant -/

theorem map_get_of_slot {α : Type} {m : HMap α} (inv : MapInv m)
    {i : Nat} {k : String} {kh : Nat} {v : α}
    (hi : m.entries.get? i = some (some (k, kh, v))) :
    map_get m k = some v := by
  have hmem : (some (k, kh, v) : Slot α) ∈ m.entries := List.get?_mem hi
  have hcount : m.count ≠ 0 := by
    have : 0 < occCount m.entries :=
      List.countP_pos.2 ⟨_, hmem, rfl⟩
    have := inv.count_eq
    omega
  have hkh : kh = str_hash k := inv.hash_ok _ _ _ _ hi
  unfold map_get
  rw [if_neg hcount, ← hkh]
  simp only [map_find_present inv hi, hi]

theorem map_get_none_of_absent {α : Type} {m : HMap α} (inv : MapInv m) {key : String}
    (habs : ∀ i k' kh' v', m.entries.get? i = some (some (k', kh', v')) → k' ≠ key) :
    map_get m key = none := by
  unfold map_get
  by_cases hcount : m.count = 0
  · rw [if_pos hcount]
  · rw [if_neg hcount]
    obtain ⟨i, hfind, hempty, -⟩ := map_find_absent inv (str_hash key) habs inv.room
    simp only [hfind, hempty]

/-- Overwriting the value of an occupied slot in place preserves the
    invariant. -/
theorem map_update_inv {α : Type} {m : HMap α} (inv : MapInv m)
    {i : Nat} {k : String} {kh : Nat} {vOld : α}
    (hi : m.entries.get? i = some (some (k, kh, vOld))) (v : α) :
    MapInv (⟨m.count, m.capacity, m.max_load_threshold,
      m.entries.set i (some (k, kh, v))⟩ : HMap α) := by
  have hilen : i < m.entries.length := lt_length_of_get? hi
  refine ⟨inv.cap_pow, ?_, inv.thresh, ?_, inv.load, ?_, ?_, ?_⟩
  · simpa [List.length_set] using inv.len_eq
  · show m.count = occCount (m.entries.set i (some (k, kh, v)))
    rw [occCount_set_of_some hi, inv.count_eq]
  · -- hash_ok
    intro i' k' kh' v' h'
    by_cases hii : i' = i
    · subst hii
      rw [List.get?_set_eq_of_lt _ hilen] at h'
      cases h'
      exact inv.hash_ok _ _ _ _ hi
    · rw [List.get?_set_ne _ _ (fun hx => hii hx.symm)] at h'
      exact inv.hash_ok i' k' kh' v' h'
  · -- keys_distinct
    intro i1 i2 k0 kh1 v1 kh2 v2 h1 h2
    by_cases hi1 : i1 = i <;> by_cases hi2 : i2 = i
    · rw [hi1, hi2]
    · subst hi1
      rw [List.get?_set_eq_of_lt _ hilen] at h1
      cases h1
      rw [List.get?_set_ne _ _ (fun hx => hi2 hx.symm)] at h2
      exact inv.keys_distinct _ _ _ _ _ _ _ hi h2
    · subst hi2
      rw [List.get?_set_eq_of_lt _ hilen] at h2
      cases h2
      rw [List.get?_set_ne _ _ (fun hx => hi1 hx.symm)] at h1
      exact inv.keys_distinct _ _ _ _ _ _ _ h1 hi
    · rw [List.get?_set_ne _ _ (fun hx => hi1 hx.symm)] at h1
      rw [List.get?_set_ne _ _ (fun hx => hi2 hx.symm)] at h2
      exact inv.keys_distinct i1 i2 k0 kh1 v1 kh2 v2 h1 h2
  · -- probe_ok
    intro i' k' kh' v' h' j hj
    by_cases hii : i' = i
    · subst hii
      rw [List.get?_set_eq_of_lt _ hilen] at h'
      cases h'
      exact occAt_set hilen _ (Or.inl (inv.probe_ok _ _ _ _ hi j hj))
    · rw [List.get?_set_ne _ _ (fun hx => hii hx.symm)] at h'
      exact occAt_set hilen _ (Or.inl (inv.probe_ok i' k' kh' v' h' j hj))

/-- Two invariant maps agreeing on the bindings of `k` answer a `k`
    query alike. -/
theorem map_get_congr {α : Type} {m m' : HMap α} (inv : MapInv m) (inv' : MapInv m')
    (k : String) (h : ∀ v, mapsTo m k v ↔ mapsTo m' k v) :
    map_get m k = map_get m' k := by
  by_cases hk : ∃ i kh v, m.entries.get? i = some (some (k, kh, v))
  · obtain ⟨i, kh, v, hi⟩ := hk
    have h1 : map_get m k = some v := map_get_of_slot inv hi
    have h2 : mapsTo m' k v := (h v).1 ⟨i, kh, hi⟩
    obtain ⟨i', kh', hi'⟩ := h2
    have h3 : map_get m' k = some v := map_get_of_slot inv' hi'
    rw [h1, h3]
  · push_neg at hk
    have habs : ∀ i k' kh' v', m.entries.get? i = some (some (k', kh', v')) → k' ≠ k := by
      intro i k' kh' v' hi hkk
      subst hkk
      exact hk i kh' v' hi
    have habs' : ∀ i k' kh' v', m'.entries.get? i = some (some (k', kh', v')) → k' ≠ k := by
      intro i k' kh' v' hi hkk
      subst hkk
      obtain ⟨i0, kh0, hi0⟩ := (h v').2 ⟨i, kh', hi⟩
      exact hk i0 kh0 v' hi0
    rw [map_get_none_of_absent inv habs, map_get_none_of_absent inv' habs']

/-- Overwriting slot `i` with key `x.1` leaves the bindings of every other
    key unchanged, provided slot `i` did not hold that other key. -/
theorem mapsTo_set_other {α : Type} {es : List (Slot α)} {i : Nat}
    (hi : i < es.length) {x : String × Nat × α} {k' : String} (hk : k' ≠ x.1)
    (hold : ∀ kh₀ v₀, es.get? i ≠ some (some (k', kh₀, v₀))) (v' : α) :
    (∃ j kh, (es.set i (some x)).get? j = some (some (k', kh, v'))) ↔
      ∃ j kh, es.get? j = some (some (k', kh, v')) := by
  obtain ⟨x1, x2, x3⟩ := x
  constructor
  · rintro ⟨j, kh, hj⟩
    by_cases hji : j = i
    · subst hji
      rw [List.get?_set_eq_of_lt _ hi] at hj
      cases hj
      exact absurd rfl hk
    · rw [List.get?_set_ne _ _ (fun hx => hji hx.symm)] at hj
      exact ⟨j, kh, hj⟩
  · rintro ⟨j, kh, hj⟩
    by_cases hji : j = i
    · subst hji
      exact absurd hj (hold _ _)
    · refine ⟨j, kh, ?_⟩
      rw [List.get?_set_ne _ _ (fun hx => hji hx.symm)]
      exact hj

/-- What `map_probe_write` does to an invariant map with room for one
    more entry: the invariant is preserved, the written key now reads
    back the new value, every other key reads back as before, and the
    capacity is untouched. -/
theorem map_probe_write_spec {α : Type} {m : HMap α} (inv : MapInv m)
    (key : String) (v : α) (hroom : 2 * (m.count + 1) ≤ m.capacity) :
    MapInv (map_probe_write m key v) ∧
    map_get (map_probe_write m key v) key = some v ∧
    (∀ k', k' ≠ key → map_get (map_probe_write m key v) k' = map_get m k') ∧
    (map_probe_write m key v).capacity = m.capacity ∧
    m.count ≤ (map_probe_write m key v).count ∧
    (map_probe_write m key v).count ≤ m.count + 1 ∧
    (map_probe_write m key v).max_load_threshold = m.max_load_threshold := by
  by_cases hk : ∃ i kh v₀, m.entries.get? i = some (some (key, kh, v₀))
  · -- the key is already present: overwrite in place
    obtain ⟨i, kh0, v0, hi⟩ := hk
    have hilen : i < m.entries.length := lt_length_of_get? hi
    have hkh0 : kh0 = str_hash key := inv.hash_ok _ _ _ _ hi
    have hfind : map_find m key (str_hash key) = some i := by
      rw [← hkh0]
      exact map_find_present inv hi
    have heq : map_probe_write m key v =
        (⟨m.count, m.capacity, m.max_load_threshold,
          m.entries.set i (some (key, kh0, v))⟩ : HMap α) := by
      simp only [map_probe_write, hfind, hi]
    have inv' : MapInv (map_probe_write m key v) := by
      rw [heq]
      exact map_update_inv inv hi v
    have hslot : (map_probe_write m key v).entries.get? i = some (some (key, kh0, v)) := by
      rw [heq]
      exact List.get?_set_eq_of_lt _ hilen
    refine ⟨inv', map_get_of_slot inv' hslot, ?_, by rw [heq], by rw [heq],
      by rw [heq]; exact Nat.le_succ _, by rw [heq]⟩
    intro k' hk'
    apply map_get_congr inv' inv k'
    intro v'
    show (∃ j kh, (map_probe_write m key v).entries.get? j = some (some (k', kh, v'))) ↔
      ∃ j kh, m.entries.get? j = some (some (k', kh, v'))
    rw [heq]
    apply mapsTo_set_other hilen hk'
    intro kh₀ v₀ hbad
    rw [hi] at hbad
    cases hbad
    exact hk' rfl
  · -- the key is absent: fill the first empty slot on its probe path
    push_neg at hk
    have habs : ∀ i k' kh' v', m.entries.get? i = some (some (k', kh', v')) → k' ≠ key := by
      intro i k' kh' v' hi hkk
      subst hkk
      exact hk i kh' v' hi
    obtain ⟨i, hfind, hempty, hpath⟩ := map_find_absent inv (str_hash key) habs inv.room
    have hilen : i < m.entries.length := lt_length_of_get? hempty
    have heq : map_probe_write m key v =
        (⟨m.count + 1, m.capacity, m.max_load_threshold,
          m.entries.set i (some (key, str_hash key, v))⟩ : HMap α) := by
      simp only [map_probe_write, hfind, hempty]
    have inv' : MapInv (map_probe_write m key v) := by
      rw [heq]
      exact map_insert_inv inv rfl hempty hpath habs hroom
    have hslot : (map_probe_write m key v).entries.get? i
        = some (some (key, str_hash key, v)) := by
      rw [heq]
      exact List.get?_set_eq_of_lt _ hilen
    refine ⟨inv', map_get_of_slot inv' hslot, ?_, by rw [heq],
      by rw [heq]; exact Nat.le_succ _, by rw [heq], by rw [heq]⟩
    intro k' hk'
    apply map_get_congr inv' inv k'
    intro v'
    show (∃ j kh, (map_probe_write m key v).entries.get? j = some (some (k', kh, v'))) ↔
      ∃ j kh, m.entries.get? j = some (some (k', kh, v'))
    rw [heq]
    apply mapsTo_set_other hilen hk'
    intro kh₀ v₀ hbad
    rw [hempty] at hbad
    cases hbad

/- ## map_grow: rehashing preserves the bindings -/

theorem occCount_replicate_none {α : Type} (n : Nat) :
    occCount (List.replicate n (none : Slot α)) = 0 := by
  induction n with
  | zero => rfl
  | succ k ih => simpa [occCount, List.replicate_succ, List.countP_cons] using ih

theorem replicate_none_get? {α : Type} {n i : Nat} {s : Slot α}
    (h : (List.replicate n (none : Slot α)).get? i = some s) : s = none := by
  have := List.get?_mem h
  rw [List.eq_of_mem_replicate this]

theorem absent_of_not_has {α : Type} {es : List (Slot α)} {key : String}
    (h : ∀ i kh' v', es.get? i ≠ some (some (key, kh', v'))) :
    ∀ i k' kh' v', es.get? i = some (some (k', kh', v')) → k' ≠ key := by
  intro i k' kh' v' hi hkk
  subst hkk
  exact h i kh' v' hi

/-- The fresh table `map_grow` builds before rehashing is invariant. -/
theorem map_fresh_inv {α : Type} {t : Nat} (ht : 3 ≤ t) :
    MapInv (⟨0, 2 ^ t, 2 ^ t / 2, List.replicate (2 ^ t) none⟩ : HMap α) := by
  refine ⟨⟨t, ht, rfl⟩, by simp, rfl, ?_, by simp, ?_, ?_, ?_⟩
  · show 0 = occCount (List.replicate (2 ^ t) (none : Slot α))
    rw [occCount_replicate_none]
  · intro i k kh v h
    cases replicate_none_get? h
  · intro i j k kh v kh' v' h1 h2
    cases replicate_none_get? h1
  · intro i k kh v h
    cases replicate_none_get? h

/-- Membership through filling an empty slot: the new table binds the
    inserted key to the inserted value and keeps every other binding. -/
theorem mapsTo_insert_iff {α : Type} {es : List (Slot α)} {i : Nat}
    (hi : i < es.length) {k0 : String} {kh0 : Nat} {v0 : α}
    (hempty : es.get? i = some none)
    (habs : ∀ j kh' v', es.get? j ≠ some (some (k0, kh', v')))
    (k : String) (v : α) :
    (∃ j kh, (es.set i (some (k0, kh0, v0))).get? j = some (some (k, kh, v))) ↔
      (∃ j kh, es.get? j = some (some (k, kh, v))) ∨ (k = k0 ∧ v = v0) := by
  by_cases hk : k = k0
  · subst hk
    constructor
    · rintro ⟨j, kh, hj⟩
      by_cases hji : j = i
      · subst hji
        rw [List.get?_set_eq_of_lt _ hi] at hj
        cases hj
        exact Or.inr ⟨rfl, rfl⟩
      · rw [List.get?_set_ne _ _ (fun hx => hji hx.symm)] at hj
        exact absurd hj (habs _ _ _)
    · rintro (⟨j, kh, hj⟩ | ⟨-, hv⟩)
      · exact absurd hj (habs _ _ _)
      · subst hv
        exact ⟨i, kh0, List.get?_set_eq_of_lt _ hi⟩
  · rw [mapsTo_set_other hi hk ?hold v]
    · simp [hk]
    case hold =>
      intro kh₀ v₀ h
      rw [hempty] at h
      cases h

/-- Folding `map_reinsert` over a list of correctly-hashed, mutually
    distinct, fresh slots inserts exactly the occupied ones. -/
theorem map_reinsert_fold {α : Type} :
    ∀ (L : List (Slot α)) (acc : HMap α), MapInv acc →
      2 * (acc.count + occCount L) ≤ acc.capacity →
      (∀ s ∈ L, ∀ k kh v, s = some (k, kh, v) → kh = str_hash k) →
      L.Pairwise (fun s s' => ∀ k kh v kh' v',
        s = some (k, kh, v) → s' = some (k, kh', v') → False) →
      (∀ k kh v, some (k, kh, v) ∈ L →
        ∀ i kh' v', acc.entries.get? i ≠ some (some (k, kh', v'))) →
      MapInv (L.foldl map_reinsert acc) ∧
      (L.foldl map_reinsert acc).capacity = acc.capacity ∧
      (L.foldl map_reinsert acc).count = acc.count + occCount L ∧
      (∀ k v, mapsTo (L.foldl map_reinsert acc) k v ↔
        mapsTo acc k v ∨ ∃ kh, some (k, kh, v) ∈ L) := by
  intro L
  induction L with
  | nil =>
    intro acc inv _ _ _ _
    refine ⟨inv, rfl, by simp [occCount], ?_⟩
    intro k v
    simp
  | cons s L' ih =>
    intro acc inv hload hhash hpair habs
    cases s with
    | none =>
      have hstep : (none :: L').foldl map_reinsert acc = L'.foldl map_reinsert acc := rfl
      have hocc : occCount ((none : Slot α) :: L') = occCount L' := by
        simp [occCount, List.countP_cons]
      rw [hocc] at hload
      have ihh := ih acc inv hload
        (fun s hs => hhash s (List.mem_cons_of_mem _ hs))
        (List.pairwise_cons.1 hpair).2
        (fun k kh v hm => habs k kh v (List.mem_cons_of_mem _ hm))
      rw [hstep, hocc]
      refine ⟨ihh.1, ihh.2.1, ihh.2.2.1, ?_⟩
      intro k v
      rw [ihh.2.2.2 k v]
      constructor
      · rintro (h | ⟨kh, hm⟩)
        · exact Or.inl h
        · exact Or.inr ⟨kh, List.mem_cons_of_mem _ hm⟩
      · rintro (h | ⟨kh, hm⟩)
        · exact Or.inl h
        · rcases List.mem_cons.1 hm with h | h
          · cases h
          · exact Or.inr ⟨kh, h⟩
    | some triple =>
      obtain ⟨k0, kh0, v0⟩ := triple
      have hkh0 : kh0 = str_hash k0 :=
        hhash _ (List.mem_cons_self _ _) k0 kh0 v0 rfl
      have hocc : occCount ((some (k0, kh0, v0) : Slot α) :: L') = occCount L' + 1 := by
        simp [occCount, List.countP_cons]
      have habs0 : ∀ i kh' v', acc.entries.get? i ≠ some (some (k0, kh', v')) :=
        habs k0 kh0 v0 (List.mem_cons_self _ _)
      have habs0' := absent_of_not_has habs0
      obtain ⟨i, hfind, hempty, hpath⟩ := map_find_absent inv kh0 habs0' inv.room
      have hilen : i < acc.entries.length := lt_length_of_get? hempty
      have heq : map_reinsert acc (some (k0, kh0, v0)) =
          (⟨acc.count + 1, acc.capacity, acc.max_load_threshold,
            acc.entries.set i (some (k0, kh0, v0))⟩ : HMap α) := by
        simp only [map_reinsert, hfind]
      have inv' : MapInv (map_reinsert acc (some (k0, kh0, v0))) := by
        rw [heq]
        exact map_insert_inv inv hkh0 hempty hpath habs0' (by rw [hocc] at hload; omega)
      have hstep : (some (k0, kh0, v0) :: L').foldl map_reinsert acc =
          L'.foldl map_reinsert (map_reinsert acc (some (k0, kh0, v0))) := rfl
      have hpair' := (List.pairwise_cons.1 hpair)
      have habs' : ∀ k kh v, some (k, kh, v) ∈ L' →
          ∀ j kh' v', (map_reinsert acc (some (k0, kh0, v0))).entries.get? j ≠
            some (some (k, kh', v')) := by
        intro k kh v hm j kh' v' hbad
        rw [heq] at hbad
        by_cases hji : j = i
        · subst hji
          rw [List.get?_set_eq_of_lt _ hilen] at hbad
          cases hbad
          exact hpair'.1 _ hm k0 kh0 v0 kh v rfl rfl
        · rw [List.get?_set_ne _ _ (fun hx => hji hx.symm)] at hbad
          exact habs k kh v (List.mem_cons_of_mem _ hm) j kh' v' hbad
      have hload' : 2 * ((map_reinsert acc (some (k0, kh0, v0))).count + occCount L') ≤
          (map_reinsert acc (some (k0, kh0, v0))).capacity := by
        rw [heq]
        show 2 * (acc.count + 1 + occCount L') ≤ acc.capacity
        rw [hocc] at hload
        omega
      have ihr := ih (map_reinsert acc (some (k0, kh0, v0))) inv' hload'
        (fun s hs => hhash s (List.mem_cons_of_mem _ hs)) hpair'.2 habs'
      rw [hstep]
      refine ⟨ihr.1, ?_, ?_, ?_⟩
      · rw [ihr.2.1, heq]
      · rw [ihr.2.2.1, heq, hocc]
        show acc.count + 1 + occCount L' = acc.count + (occCount L' + 1)
        omega
      · intro k v
        rw [ihr.2.2.2 k v]
        have hmid : mapsTo (map_reinsert acc (some (k0, kh0, v0))) k v ↔
            mapsTo acc k v ∨ (k = k0 ∧ v = v0) := by
          show (∃ j kh, (map_reinsert acc (some (k0, kh0, v0))).entries.get? j =
            some (some (k, kh, v))) ↔ _
          rw [heq]
          exact mapsTo_insert_iff hilen hempty habs0 k v
        rw [hmid]
        constructor
        · rintro ((h | ⟨hk, hv⟩) | ⟨kh, hm⟩)
          · exact Or.inl h
          · subst hk
            subst hv
            exact Or.inr ⟨kh0, List.mem_cons_self _ _⟩
          · exact Or.inr ⟨kh, List.mem_cons_of_mem _ hm⟩
        · rintro (h | ⟨kh, hm⟩)
          · exact Or.inl (Or.inl h)
          · rcases List.mem_cons.1 hm with h | h
            · cases h
              exact Or.inl (Or.inr ⟨rfl, rfl⟩)
            · exact Or.inr ⟨kh, h⟩

/-- `map_grow` keeps the count and every binding, doubles the capacity
    (minimum 8), and restores the invariant. -/
theorem map_grow_spec {α : Type} {m : HMap α} (wf : MapWf m) :
    MapInv (map_grow m) ∧
    (map_grow m).count = m.count ∧
    (map_grow m).capacity = (if m.capacity < 8 then 8 else m.capacity * 2) ∧
    (∀ k v, mapsTo (map_grow m) k v ↔ mapsTo m k v) := by
  rcases wf with hnew | inv
  · subst hnew
    have h8 : MapInv (map_grow (map_new : HMap α)) :=
      map_fresh_inv (α := α) (t := 3) (by omega)
    refine ⟨h8, rfl, rfl, ?_⟩
    intro k v
    constructor
    · rintro ⟨i, kh, hi⟩
      have hi' : (List.replicate 8 (none : Slot α)).get? i = some (some (k, kh, v)) := hi
      cases replicate_none_get? hi'
    · rintro ⟨i, kh, hi⟩
      have hi' : ([] : List (Slot α)).get? i = some (some (k, kh, v)) := hi
      cases i <;> cases hi'
  · obtain ⟨t, ht3, hcap⟩ := inv.cap_pow
    have hn8 : ¬ m.capacity < 8 := by
      have := inv.cap_ge_8
      omega
    have hncap : (if m.capacity < 8 then 8 else m.capacity * 2) = 2 ^ (t + 1) := by
      rw [if_neg hn8, hcap, pow_succ]
    have hgrow : map_grow m = m.entries.foldl map_reinsert
        ⟨0, 2 ^ (t + 1), 2 ^ (t + 1) / 2, List.replicate (2 ^ (t + 1)) none⟩ := by
      simp only [map_grow]
      rw [hncap]
    have hinit : MapInv (⟨0, 2 ^ (t + 1), 2 ^ (t + 1) / 2,
        List.replicate (2 ^ (t + 1)) none⟩ : HMap α) :=
      map_fresh_inv (by omega)
    have hpow : (2 : Nat) ^ (t + 1) = 2 ^ t * 2 := pow_succ 2 t
    have hload : 2 * ((0 : Nat) + occCount m.entries) ≤ 2 ^ (t + 1) := by
      have h1 := inv.load
      have h2 := inv.count_eq
      rw [hcap] at h1
      omega
    have hhash : ∀ s ∈ m.entries, ∀ k kh v, s = some (k, kh, v) → kh = str_hash k := by
      intro s hs k kh v hskv
      subst hskv
      obtain ⟨n, hn⟩ := List.mem_iff_get?.1 hs
      exact inv.hash_ok n k kh v hn
    have hpair : m.entries.Pairwise (fun s s' => ∀ k kh v kh' v',
        s = some (k, kh, v) → s' = some (k, kh', v') → False) := by
      rw [List.pairwise_iff_get]
      intro i j hij k kh v kh' v' hi hj
      have hgi : m.entries.get? i.val = some (some (k, kh, v)) := by
        rw [List.get?_eq_get i.isLt, hi]
      have hgj : m.entries.get? j.val = some (some (k, kh', v')) := by
        rw [List.get?_eq_get j.isLt, hj]
      have := inv.keys_distinct _ _ _ _ _ _ _ hgi hgj
      omega
    have habs : ∀ k kh v, some (k, kh, v) ∈ m.entries →
        ∀ i kh' v', (⟨0, 2 ^ (t + 1), 2 ^ (t + 1) / 2,
          List.replicate (2 ^ (t + 1)) none⟩ : HMap α).entries.get? i ≠
            some (some (k, kh', v')) := by
      intro k kh v _ i kh' v' hbad
      have hbad' : (List.replicate (2 ^ (t + 1)) (none : Slot α)).get? i =
          some (some (k, kh', v')) := hbad
      cases replicate_none_get? hbad'
    have hfold := map_reinsert_fold m.entries _ hinit hload hhash hpair habs
    rw [hgrow]
    refine ⟨hfold.1, ?_, ?_, ?_⟩
    · rw [hfold.2.2.1]
      show 0 + occCount m.entries = m.count
      have := inv.count_eq
      omega
    · rw [hfold.2.1, hncap]
    · intro k v
      rw [hfold.2.2.2 k v]
      constructor
      · rintro (⟨i, kh, hi⟩ | ⟨kh, hm⟩)
        · have hi' : (List.replicate (2 ^ (t + 1)) (none : Slot α)).get? i =
              some (some (k, kh, v)) := hi
          cases replicate_none_get? hi'
        · obtain ⟨n, hn⟩ := List.mem_iff_get?.1 hm
          exact ⟨n, kh, hn⟩
      · rintro ⟨i, kh, hi⟩
        exact Or.inr ⟨kh, List.get?_mem hi⟩

/-- What one `map_set` does to a well-formed map: the invariant holds
    afterwards, the key reads back the new value, all other keys are
    untouched, and the capacity doubles (minimum 8) exactly when the call
    began with `count = max_load_threshold`. -/
theorem map_set_spec {α : Type} {m : HMap α} (wf : MapWf m) (key : String) (v : α) :
    MapInv (map_set m key v) ∧
    map_get (map_set m key v) key = some v ∧
    (∀ k', k' ≠ key → map_get (map_set m key v) k' = map_get m k') ∧
    (map_set m key v).capacity =
      (if m.count = m.max_load_threshold then
        (if m.capacity < 8 then 8 else m.capacity * 2) else m.capacity) := by
  by_cases hgrow : m.count = m.max_load_threshold
  · have hset : map_set m key v = map_probe_write (map_grow m) key v := by
      simp only [map_set, if_pos hgrow]
    have gs := map_grow_spec wf
    have inv1 : MapInv (map_grow m) := gs.1
    have hroom : 2 * ((map_grow m).count + 1) ≤ (map_grow m).capacity := by
      rw [gs.2.1, gs.2.2.1]
      rcases wf with hnew | inv
      · subst hnew
        show 2 * (0 + 1) ≤ if (0 : Nat) < 8 then 8 else 0 * 2
        simp
      · have h1 := inv.load
        have h2 := inv.cap_ge_8
        rw [if_neg (by omega)]
        omega
    have pw := map_probe_write_spec inv1 key v hroom
    have hget1 : ∀ k', map_get (map_grow m) k' = map_get m k' := by
      intro k'
      rcases wf with hnew | inv
      · subst hnew
        have habs : ∀ i k'' kh v'', (map_grow (map_new : HMap α)).entries.get? i =
            some (some (k'', kh, v'')) → k'' ≠ k' := by
          intro i k'' kh v'' hi _
          obtain ⟨j, kh', hj⟩ := (gs.2.2.2 k'' v'').1 ⟨i, kh, hi⟩
          have hj' : ([] : List (Slot α)).get? j = some (some (k'', kh', v'')) := hj
          cases j <;> cases hj'
        rw [map_get_none_of_absent inv1 habs]
        rfl
      · exact map_get_congr inv1 inv k' (fun v' => gs.2.2.2 k' v')
    rw [hset]
    refine ⟨pw.1, pw.2.1, ?_, ?_⟩
    · intro k' hk'
      rw [pw.2.2.1 k' hk', hget1 k']
    · rw [pw.2.2.2.1, gs.2.2.1, if_pos hgrow]
  · have hset : map_set m key v = map_probe_write m key v := by
      simp only [map_set, if_neg hgrow]
    have inv : MapInv m := by
      rcases wf with hnew | inv
      · subst hnew
        exact absurd rfl hgrow
      · exact inv
    have hroom : 2 * (m.count + 1) ≤ m.capacity := by
      obtain ⟨t, ht3, hcap⟩ := inv.cap_pow
      obtain ⟨x, hx⟩ : 2 ∣ m.capacity := by
        rw [hcap]
        exact dvd_pow_self 2 (by omega)
      have h1 := inv.load
      have h2 := inv.thresh
      omega
    have pw := map_probe_write_spec inv key v hroom
    rw [hset]
    refine ⟨pw.1, pw.2.1, pw.2.2.1, ?_⟩
    rw [pw.2.2.2.1, if_neg hgrow]

/-- `map_set` keeps a map well-formed. -/
theorem map_set_wf {α : Type} {m : HMap α} (wf : MapWf m) (key : String) (v : α) :
    MapWf (map_set m key v) :=
  Or.inr (map_set_spec wf key v).1

/-- A sequence of `map_set` calls with pairwise-distinct keys: every key
    reads back its value, keys outside the sequence are untouched, and
    well-formedness is preserved. -/
theorem map_set_fold_spec {α : Type} :
    ∀ (pairs : List (String × α)) (m : HMap α), MapWf m →
      (pairs.map Prod.fst).Nodup →
      MapWf (pairs.foldl (fun acc q => map_set acc q.1 q.2) m) ∧
      (∀ p ∈ pairs,
        map_get (pairs.foldl (fun acc q => map_set acc q.1 q.2) m) p.1 = some p.2) ∧
      (∀ k, k ∉ pairs.map Prod.fst →
        map_get (pairs.foldl (fun acc q => map_set acc q.1 q.2) m) k = map_get m k) := by
  intro pairs
  induction pairs with
  | nil =>
    intro m wf _
    refine ⟨wf, ?_, ?_⟩
    · intro p hp
      cases hp
    · intro k _
      rfl
  | cons q rest ih =>
    intro m wf hnodup
    obtain ⟨k0, v0⟩ := q
    have hnodup' : (k0 :: rest.map Prod.fst).Nodup := hnodup
    have hnd := List.nodup_cons.1 hnodup'
    have spec := map_set_spec wf k0 v0
    have wf' : MapWf (map_set m k0 v0) := map_set_wf wf k0 v0
    have ihh := ih (map_set m k0 v0) wf' hnd.2
    have hstep : ((k0, v0) :: rest).foldl (fun acc q => map_set acc q.1 q.2) m =
        rest.foldl (fun acc q => map_set acc q.1 q.2) (map_set m k0 v0) := rfl
    rw [hstep]
    refine ⟨ihh.1, ?_, ?_⟩
    · intro p hp
      rcases List.mem_cons.1 hp with hph | hpt
      · subst hph
        rw [ihh.2.2 k0 hnd.1, spec.2.1]
      · exact ihh.2.1 p hpt
    · intro k hk
      have hk1 : k ≠ k0 := by
        intro hx
        subst hx
        exact hk (by simp)
      have hk2 : k ∉ rest.map Prod.fst := by
        intro hx
        exact hk (by simp [hx])
      rw [ihh.2.2 k hk2, spec.2.2.1 k hk1]

/-- Setting a list of keys to one shared value: every listed key reads
    back that value, other keys are untouched. -/
theorem map_setall_fold {α : Type} :
    ∀ (ws : List String) (m : HMap α) (v : α), MapWf m →
      MapWf (ws.foldl (fun acc k => map_set acc k v) m) ∧
      (∀ w ∈ ws, map_get (ws.foldl (fun acc k => map_set acc k v) m) w = some v) ∧
      (∀ k, k ∉ ws → map_get (ws.foldl (fun acc k => map_set acc k v) m) k = map_get m k) := by
  intro ws
  induction ws with
  | nil =>
    intro m v wf
    refine ⟨wf, ?_, ?_⟩
    · intro w hw
      cases hw
    · intro k _
      rfl
  | cons w0 rest ih =>
    intro m v wf
    have spec := map_set_spec wf w0 v
    have wf' : MapWf (map_set m w0 v) := map_set_wf wf w0 v
    have ihh := ih (map_set m w0 v) v wf'
    have hstep : (w0 :: rest).foldl (fun acc k => map_set acc k v) m =
        rest.foldl (fun acc k => map_set acc k v) (map_set m w0 v) := rfl
    rw [hstep]
    refine ⟨ihh.1, ?_, ?_⟩
    · intro w hw
      rcases List.mem_cons.1 hw with hw0 | hwr
      · subst hw0
        by_cases hmem : w ∈ rest
        · exact ihh.2.1 w hmem
        · rw [ihh.2.2 w hmem, spec.2.1]
      · exact ihh.2.1 w hwr
    · intro k hk
      have hk1 : k ≠ w0 := by
        intro hx
        subst hx
        exact hk (List.mem_cons_self _ _)
      have hk2 : k ∉ rest := fun hx => hk (List.mem_cons_of_mem _ hx)
      rw [ihh.2.2 k hk2, spec.2.2.1 k hk1]

/-- `map_set_splitkey` binds every word of the alias string to the single
    shared value. -/
theorem map_set_splitkey_spec {α : Type} {m : HMap α} (wf : MapWf m)
    (keys : String) (v : α) :
    MapWf (map_set_splitkey m keys v) ∧
    (∀ w ∈ splitWords keys, map_get (map_set_splitkey m keys v) w = some v) ∧
    (∀ k, k ∉ splitWords keys → map_get (map_set_splitkey m keys v) k = map_get m k) := by
  have h := map_setall_fold (splitWords keys) m v wf
  exact ⟨h.1, h.2.1, h.2.2⟩

/- ## Branch behaviour of the parse loop -/

/-- One unfolding of the parse loop on a non-empty stream with fuel
    available. -/
theorem ap_parse_stream_succ_cons (fuel : Nat) (st : APState) (pid : Nat)
    (is_first : Bool) (arg : String) (rest : List String) :
    ap_parse_stream (fuel + 1) st pid is_first (arg :: rest) =
    (if arg.toList = ['-', '-'] then
      some (.ok (st.modifyParser pid
        (fun p => { p with positional_args := p.positional_args ++ rest })))
    else if arg.toList.take 2 = ['-', '-'] then
      if arg.toList.contains '=' then
        match ap_handle_equals_opt st pid "--" (String.mk (arg.toList.drop 2)) with
        | .ok st' => ap_parse_stream fuel st' pid false rest
        | .error e => some (.error e)
      else
        match ap_handle_long_opt st pid (String.mk (arg.toList.drop 2)) rest with
        | .ok (st', rest') => ap_parse_stream fuel st' pid false rest'
        | .error e => some (.error e)
    else if arg.toList.take 1 = ['-'] then
      if arg.toList.length = 1 ∨ (arg.toList.getD 1 ' ').isDigit then
        ap_parse_stream fuel (pushPositional st pid arg) pid false rest
      else if arg.toList.contains '=' then
        match ap_handle_equals_opt st pid "-" (String.mk (arg.toList.drop 1)) with
        | .ok st' => ap_parse_stream fuel st' pid false rest
        | .error e => some (.error e)
      else
        match ap_handle_short_opt st pid (String.mk (arg.toList.drop 1)) rest with
        | .ok (st', rest') => ap_parse_stream fuel st' pid false rest'
        | .error e => some (.error e)
    else
      match is_first, map_get (st.parser pid).command_map arg with
      | true, some cid =>
        let st' := st.modifyParser pid
          (fun p => { p with cmd_name := some arg, cmd_parser_id := some cid })
        ap_parse_stream fuel st' cid true rest
      | true, none =>
        if (st.parser pid).cmd_help ∧ arg = "help" then
          match rest with
          | name :: _ =>
            match map_get (st.parser pid).command_map name with
            | some cid => some (.error (.quit ((st.parser cid).helptext.getD "")))
            | none => some (.error (.fatal (name ++ " is not a recognised command")))
          | [] => some (.error (.fatal "the help command requires an argument"))
        else
          ap_parse_stream fuel (pushPositional st pid arg) pid false rest
      | false, _ =>
        ap_parse_stream fuel (pushPositional st pid arg) pid false rest) := rfl

/-- A bare `--` sends every remaining token, verbatim and in order, to
    the positional list, with no further dispatch of any kind. -/
theorem parse_dashdash_eq (fuel : Nat) (st : APState) (pid : Nat) (b : Bool)
    (rest : List String) :
    ap_parse_stream (fuel + 1) st pid b ("--" :: rest) =
      some (.ok (st.modifyParser pid
        (fun p => { p with positional_args := p.positional_args ++ rest }))) := by
  rw [ap_parse_stream_succ_cons]
  rw [if_pos (by decide : "--".toList = ['-', '-'])]

/-- A token whose second character is a digit after a leading dash is a
    positional argument, not a short option. -/
theorem parse_dashdigit_eq (fuel : Nat) (st : APState) (pid : Nat) (b : Bool)
    (c : Char) (cs : List Char) (rest : List String) (hdig : c.isDigit = true) :
    ap_parse_stream (fuel + 1) st pid b (String.mk ('-' :: c :: cs) :: rest) =
      ap_parse_stream fuel (pushPositional st pid (String.mk ('-' :: c :: cs)))
        pid false rest := by
  have hcd : c ≠ '-' := by
    intro h
    rw [h] at hdig
    cases hdig
  rw [ap_parse_stream_succ_cons]
  rw [if_neg (by simp [hcd] : ¬(String.mk ('-' :: c :: cs)).toList = ['-', '-'])]
  rw [if_neg (by simp [hcd] : ¬((String.mk ('-' :: c :: cs)).toList.take 2 = ['-', '-']))]
  rw [if_pos (by simp : ((String.mk ('-' :: c :: cs)).toList.take 1 = ['-']))]
  rw [if_pos (Or.inr (by simpa using hdig))]

/-- A first-position token matching a registered command records the
    command and hands the same remaining stream to the child parser. -/
theorem parse_command_eq (fuel : Nat) (st : APState) (pid : Nat) (arg : String)
    (rest : List String) (cid : Nat)
    (hdash : arg.toList.take 1 ≠ ['-'])
    (hcmd : map_get (st.parser pid).command_map arg = some cid) :
    ap_parse_stream (fuel + 1) st pid true (arg :: rest) =
      ap_parse_stream fuel
        (st.modifyParser pid
          (fun p => { p with cmd_name := some arg, cmd_parser_id := some cid }))
        cid true rest := by
  have h1 : arg.toList ≠ ['-', '-'] := by
    intro h
    apply hdash
    rw [h]
    rfl
  have h2 : arg.toList.take 2 ≠ ['-', '-'] := by
    intro h
    apply hdash
    have h3 := congrArg (List.take 1) h
    rw [List.take_take] at h3
    simpa using h3
  rw [ap_parse_stream_succ_cons]
  rw [if_neg h1, if_neg h2, if_neg hdash]
  simp only [hcmd]

/-- A single-dash token that is longer than one character, has no digit
    in second position and contains `=` is handled as a short equals-form
    option on the text after the dash. -/
theorem parse_short_equals_eq (fuel : Nat) (st : APState) (pid : Nat) (b : Bool)
    (c : Char) (cs : List Char) (rest : List String)
    (hcd : c ≠ '-') (hdig : ¬c.isDigit = true)
    (heq : ('-' :: c :: cs).contains '=' = true) :
    ap_parse_stream (fuel + 1) st pid b (String.mk ('-' :: c :: cs) :: rest) =
      match ap_handle_equals_opt st pid "-" (String.mk (c :: cs)) with
      | .ok st' => ap_parse_stream fuel st' pid false rest
      | .error e => some (.error e) := by
  rw [ap_parse_stream_succ_cons]
  rw [if_neg (by simp [hcd] : ¬(String.mk ('-' :: c :: cs)).toList = ['-', '-'])]
  rw [if_neg (by simp [hcd] : ¬((String.mk ('-' :: c :: cs)).toList.take 2 = ['-', '-']))]
  rw [if_pos (by simp : ((String.mk ('-' :: c :: cs)).toList.take 1 = ['-']))]
  rw [if_neg ?hcond]
  case hcond =>
    rintro (hlen | hd)
    · simp at hlen
    · exact hdig (by simpa using hd)
  rw [if_pos (show (String.mk ('-' :: c :: cs)).toList.contains '=' = true from heq)]
  rfl

/- ## Helper lemmas for the claims -/

theorem modifyAt_getD {β : Type} :
    ∀ (l : List β) (i : Nat) (f : β → β) (d : β), i < l.length →
      (modifyAt l i f).getD i d = f (l.getD i d) := by
  intro l
  induction l with
  | nil =>
    intro i f d h
    cases h
  | cons a t ih =>
    intro i f d h
    cases i with
    | zero => rfl
    | succ n => exact ih n f d (by simpa using h)

theorem modifyParser_at (st : APState) (pid : Nat) (f : ArgParser → ArgParser)
    (h : pid < st.parsers.length) :
    (st.modifyParser pid f).parser pid = f (st.parser pid) := by
  unfold APState.modifyParser APState.parser
  exact modifyAt_getD _ _ _ _ h

theorem getD_concat_length {β : Type} (l : List β) (v d : β) :
    (l ++ [v]).getD l.length d = v := by
  induction l with
  | nil => rfl
  | cons a t ih => simpa using ih

/- ## The claims -/

/-- C1: when the first token at a parser level is a registered command
    name (and not an option-form token), parse records it as the matched
    command and recurses into the matched child parser on the same
    remaining stream; the match is terminal for the parent's level, as the
    concrete `run --fast x` scenario shows: the child sees flag `fast` and
    positional `x`, and the parent keeps zero positionals. -/
theorem claim_C1_command_terminal :
    (∀ (st : APState) (pid : Nat) (arg : String) (rest : List String) (cid : Nat),
      arg.toList.take 1 ≠ ['-'] →
      map_get (st.parser pid).command_map arg = some cid →
      ap_parse_array st pid (arg :: rest) =
        ap_parse_array
          (st.modifyParser pid
            (fun p => { p with cmd_name := some arg, cmd_parser_id := some cid }))
          cid rest) ∧
    parseThen cmdExSt 0 ["run", "--fast", "x"]
      (fun st => (ap_cmd_name st 0, ap_args st 0, ap_args st cmdExSetup.2,
        ap_found st cmdExSetup.2 "fast")) =
      some (.ok (some "run", [], ["x"], .ok true)) := by
  constructor
  · intro st pid arg rest cid hdash hcmd
    show ap_parse_stream (rest.length + 1) st pid true (arg :: rest) =
      ap_parse_stream rest.length _ cid true rest
    exact parse_command_eq rest.length st pid arg rest cid hdash hcmd
  · decide

theorem claim_C1_witness :
    ap_parse_array cmdExSt 0 ["run", "--fast", "x"] =
      ap_parse_array
        (cmdExSt.modifyParser 0
          (fun p => { p with cmd_name := some "run", cmd_parser_id := some 1 }))
        1 ["--fast", "x"] :=
  claim_C1_command_terminal.1 cmdExSt 0 "run" ["--fast", "x"] 1 (by decide) (by decide)

/-- C2: a value-taking option's scalar accessor returns the last-appended
    occurrence (or the fallback when none were appended) and the list
    accessor returns the full history in supply order; concretely,
    registering int option `n` with fallback 0 and parsing
    `-n 5 -n 7` yields `int_values = [5, 7]` and `int_value = 7`. -/
theorem claim_C2_last_write_wins :
    (∀ (o : ArgOption) (v : OptionValue), o.count = o.values.length →
      option_get_int (option_append_value o v) = v.asInt) ∧
    (∀ o : ArgOption, o.count = 0 → option_get_int o = o.fallback.asInt) ∧
    (∀ (o : ArgOption) (v : OptionValue), o.count = o.values.length →
      option_get_int_list (option_append_value o v) =
        option_get_int_list o ++ [v.asInt]) ∧
    parseThen intExSt 0 ["-n", "5", "-n", "7"]
      (fun st => (ap_int_values st 0 "n", ap_int_value st 0 "n")) =
      some (.ok (.ok [5, 7], .ok 7)) := by
  refine ⟨?_, ?_, ?_, by decide⟩
  · intro o v h
    show (if 0 < o.count + 1 then ((o.values ++ [v]).getD (o.count + 1 - 1) default).asInt
      else o.fallback.asInt) = v.asInt
    rw [if_pos (Nat.succ_pos _)]
    have hidx : o.count + 1 - 1 = o.values.length := by omega
    rw [hidx, getD_concat_length]
  · intro o h
    show (if 0 < o.count then (o.values.getD (o.count - 1) default).asInt
      else o.fallback.asInt) = o.fallback.asInt
    rw [if_neg (by omega)]
  · intro o v h
    show (if o.count + 1 = 0 then []
        else ((o.values ++ [v]).take (o.count + 1)).map OptionValue.asInt) =
      option_get_int_list o ++ [v.asInt]
    rw [if_neg (Nat.succ_ne_zero _)]
    have htake : (o.values ++ [v]).take (o.count + 1) = o.values ++ [v] := by
      rw [show o.count + 1 = (o.values ++ [v]).length by simp [h], List.take_length]
    rw [htake, List.map_append]
    by_cases h0 : o.count = 0
    · have hnil : o.values = [] := List.length_eq_zero.1 (by omega)
      rw [hnil]
      show [v.asInt] = option_get_int_list o ++ [v.asInt]
      unfold option_get_int_list
      rw [if_pos h0]
      rfl
    · unfold option_get_int_list
      rw [if_neg h0, h, List.take_length]
      rfl

theorem claim_C2_witness :
    option_get_int (option_append_value (option_new_int 0) (.int_val 7)) = 7 ∧
    option_get_int_list (option_append_value (option_new_int 0) (.int_val 7)) =
      option_get_int_list (option_new_int 0) ++ [7] :=
  ⟨claim_C2_last_write_wins.1 (option_new_int 0) (.int_val 7) (by decide),
   claim_C2_last_write_wins.2.2.1 (option_new_int 0) (.int_val 7) (by decide)⟩

/-- C3: once a bare `--` token is met, every remaining token — dashes and
    all — is appended verbatim, in order, to the positional-argument
    list, with no option dispatch performed on any of them; e.g.
    `parse ["--", "--foo", "-b"]` yields positionals `["--foo", "-b"]`. -/
theorem claim_C3_separator_law :
    (∀ (fuel : Nat) (st : APState) (pid : Nat) (b : Bool) (rest : List String),
      ap_parse_stream (fuel + 1) st pid b ("--" :: rest) =
        some (.ok (st.modifyParser pid
          (fun p => { p with positional_args := p.positional_args ++ rest })))) ∧
    (∀ (st : APState) (pid : Nat) (rest : List String),
      ap_parse_array st pid ("--" :: rest) =
        some (.ok (st.modifyParser pid
          (fun p => { p with positional_args := p.positional_args ++ rest })))) ∧
    parseThen apRoot 0 ["--", "--foo", "-b"] (fun st => ap_args st 0) =
      some (.ok ["--foo", "-b"]) := by
  refine ⟨parse_dashdash_eq, ?_, by decide⟩
  intro st pid rest
  exact parse_dashdash_eq rest.length st pid true rest

/-- C4: a token of the form `-<digit...>` is appended verbatim to the
    positional arguments instead of being treated as a short option, even
    with no option of that digit name registered, and no error is raised;
    e.g. `parse ["-5"]` on a parser with no registrations yields the
    positional `["-5"]`. -/
theorem claim_C4_negative_number :
    (∀ (fuel : Nat) (st : APState) (pid : Nat) (b : Bool) (c : Char)
        (cs : List Char) (rest : List String),
      c.isDigit = true → (∀ c' ∈ cs, c'.isDigit = true) →
      ap_parse_stream (fuel + 1) st pid b (String.mk ('-' :: c :: cs) :: rest) =
        ap_parse_stream fuel (pushPositional st pid (String.mk ('-' :: c :: cs)))
          pid false rest) ∧
    ap_parse_array apRoot 0 ["-5"] = some (.ok (pushPositional apRoot 0 "-5")) ∧
    parseThen apRoot 0 ["-5"] (fun st => ap_args st 0) = some (.ok ["-5"]) := by
  refine ⟨?_, by decide, by decide⟩
  intro fuel st pid b c cs rest hdig _
  exact parse_dashdigit_eq fuel st pid b c cs rest hdig

theorem claim_C4_witness :
    ap_parse_stream (0 + 1) apRoot 0 true (String.mk ['-', '5'] :: []) =
      ap_parse_stream 0 (pushPositional apRoot 0 (String.mk ['-', '5'])) 0 false [] :=
  claim_C4_negative_number.1 0 apRoot 0 true '5' [] [] (by decide) (by decide)

/-- C5: registering under a space-separated alias string binds every
    alias word to the one shared value, so a mutation through any alias
    is observable through every other; e.g. after `ap_flag "v verbose"`
    and `parse ["-v"]`, `found("verbose")` is true and the counts agree
    across the aliases. -/
theorem claim_C5_alias_sharing :
    (∀ {α : Type} (m : HMap α) (keys : String) (v : α), MapWf m →
      ∀ w ∈ splitWords keys, map_get (map_set_splitkey m keys v) w = some v) ∧
    (∀ (st : APState) (pid : Nat) (name : String),
      pid < st.parsers.length → MapWf (st.parser pid).option_map →
      ∀ w ∈ splitWords name,
        map_get ((ap_flag st pid name).parser pid).option_map w =
          some st.options.length) ∧
    parseThen aliasExSt 0 ["-v"]
      (fun st => (ap_found st 0 "verbose", ap_count st 0 "v", ap_count st 0 "verbose")) =
      some (.ok (.ok true, .ok 1, .ok 1)) := by
  refine ⟨?_, ?_, by decide⟩
  · intro α m keys v wf w hw
    exact (map_set_splitkey_spec wf keys v).2.1 w hw
  · intro st pid name hpid wf w hw
    have hp1 := modifyParser_at
      { st with options := st.options ++ [option_new_flag] } pid
      (fun p =>
        { p with option_vec := p.option_vec ++ [st.options.length],
                 option_map := map_set_splitkey p.option_map name st.options.length })
      hpid
    show map_get ((APState.modifyParser
      { st with options := st.options ++ [option_new_flag] } pid
      (fun p =>
        { p with option_vec := p.option_vec ++ [st.options.length],
                 option_map := map_set_splitkey p.option_map name st.options.length
        })).parser pid).option_map w = some st.options.length
    rw [hp1]
    exact (map_set_splitkey_spec wf name st.options.length).2.1 w hw

theorem claim_C5_witness :
    map_get (map_set_splitkey (map_new : HMap Nat) "v verbose" 0) "verbose" = some 0 :=
  claim_C5_alias_sharing.1 map_new "v verbose" 0 (Or.inl rfl) "verbose" (by decide)

/-- C6: inserting any number of distinct keys into an empty map via
    `map_set` and reading each back with `map_get` returns the stored
    value for every key, for every length — including lengths that cross
    grow boundaries (the witness uses 9 keys, crossing capacity 8 → 16
    → 32). -/
theorem claim_C6_map_growth :
    ∀ {α : Type} (pairs : List (String × α)), (pairs.map Prod.fst).Nodup →
      ∀ p ∈ pairs,
        map_get (pairs.foldl (fun acc q => map_set acc q.1 q.2) map_new) p.1 =
          some p.2 :=
  fun pairs h p hp => (map_set_fold_spec pairs map_new (Or.inl rfl) h).2.1 p hp

theorem claim_C6_witness :
    map_get nineKeyMap "0" = some 0 ∧ map_get nineKeyMap "8" = some 8 ∧
    nineKeyMap.count = 9 ∧ nineKeyMap.capacity = 32 :=
  ⟨claim_C6_map_growth nineKeyPairs (by decide) ("0", 0) (by decide),
   claim_C6_map_growth nineKeyPairs (by decide) ("8", 8) (by decide),
   by decide, by decide⟩

/-- C7 (counterexample): the load factor is not kept strictly below 0.5
    at all times — after inserting 4 distinct keys into a fresh map the
    table holds count 4 at capacity 8, i.e. the load factor is exactly
    0.5, refuting `count < capacity * 0.5` as a universal invariant. -/
theorem claim_C7_counterexample :
    halfFullMap.count = 4 ∧ halfFullMap.capacity = 8 ∧
    ¬2 * halfFullMap.count < halfFullMap.capacity := by decide

/-- C7 (amended): after every `map_set` on a well-formed map the load
    factor is at most 0.5 (`2 * count ≤ capacity`), the threshold field
    equals `floor(capacity * 0.5)`, and the capacity doubles (minimum 8)
    exactly when the call began with `count == max_load_threshold` — the
    grow happens before the triggering insert completes. -/
theorem claim_C7_load_factor :
    ∀ {α : Type} (m : HMap α) (key : String) (v : α), MapWf m →
      2 * (map_set m key v).count ≤ (map_set m key v).capacity ∧
      (map_set m key v).max_load_threshold = (map_set m key v).capacity / 2 ∧
      (map_set m key v).capacity =
        (if m.count = m.max_load_threshold then
          (if m.capacity < 8 then 8 else m.capacity * 2) else m.capacity) := by
  intro α m key v wf
  have spec := map_set_spec wf key v
  exact ⟨spec.1.load, spec.1.thresh, spec.2.2.2⟩

theorem claim_C7_witness :
    2 * (map_set (map_new : HMap Nat) "a" 0).count ≤
        (map_set (map_new : HMap Nat) "a" 0).capacity ∧
    (map_set (map_new : HMap Nat) "a" 0).max_load_threshold =
        (map_set (map_new : HMap Nat) "a" 0).capacity / 2 ∧
    (map_set (map_new : HMap Nat) "a" 0).capacity =
      (if (map_new : HMap Nat).count = (map_new : HMap Nat).max_load_threshold then
        (if (map_new : HMap Nat).capacity < 8 then 8 else (map_new : HMap Nat).capacity * 2)
      else (map_new : HMap Nat).capacity) :=
  claim_C7_load_factor map_new "a" 0 (Or.inl rfl)

/-- C8: for a registered option, the scalar accessor returns the
    registered fallback whenever the occurrence count is zero, and zero
    occurrences is exactly the "not found" condition of the presence
    query. -/
theorem claim_C8_fallback_law :
    ∀ (st : APState) (pid : Nat) (name : String) (o : ArgOption),
      ap_get_opt st pid name = .ok o →
      ap_count st pid name = .ok o.count ∧
      (o.count = 0 → ap_int_value st pid name = .ok o.fallback.asInt) ∧
      (ap_found st pid name = .ok false ↔ o.count = 0) := by
  intro st pid name o h
  refine ⟨?_, ?_, ?_⟩
  · unfold ap_count
    rw [h]
    rfl
  · intro h0
    unfold ap_int_value
    rw [h]
    show Except.ok (option_get_int o) = Except.ok o.fallback.asInt
    unfold option_get_int
    rw [if_neg (by omega)]
  · unfold ap_found
    rw [h]
    show Except.ok (decide (0 < o.count)) = Except.ok false ↔ o.count = 0
    constructor
    · intro hx
      have hx2 : decide (0 < o.count) = false := by injection hx
      have := of_decide_eq_false hx2
      omega
    · intro hx
      rw [hx]
      rfl

theorem claim_C8_witness :
    ap_count intExSt 0 "n" = .ok 0 ∧
    ap_int_value intExSt 0 "n" = .ok 0 ∧
    (ap_found intExSt 0 "n" = .ok false ↔ (option_new_int 0).count = 0) := by
  have h := claim_C8_fallback_law intExSt 0 "n" (option_new_int 0) (by decide)
  exact ⟨h.1, h.2.1 rfl, h.2.2⟩

/-- C9: a token with a single leading dash, longer than one character,
    whose second character is not a digit and which contains `=`, is
    parsed as an equals-form option: the text between the dash and the
    first `=` is the looked-up name (so `-name=value` is accepted, not
    only `--name=value`), the text after the first `=` is the value, and
    the same lookup-miss and empty-value fatal errors apply as for the
    long form. -/
theorem claim_C9_short_equals_form :
    (∀ (fuel : Nat) (st : APState) (pid : Nat) (b : Bool) (c : Char)
        (cs : List Char) (rest : List String),
      c ≠ '-' → ¬c.isDigit = true → ('-' :: c :: cs).contains '=' = true →
      ap_parse_stream (fuel + 1) st pid b (String.mk ('-' :: c :: cs) :: rest) =
        match ap_handle_equals_opt st pid "-" (String.mk (c :: cs)) with
        | .ok st' => ap_parse_stream fuel st' pid false rest
        | .error e => some (.error e)) ∧
    (∀ (st : APState) (pid : Nat) (pfx arg : String),
      map_get (st.parser pid).option_map
        (String.mk (arg.toList.takeWhile (fun ch => ch ≠ '='))) = none →
      ap_handle_equals_opt st pid pfx arg =
        .error (.fatal (pfx ++ String.mk (arg.toList.takeWhile (fun ch => ch ≠ '=')) ++
          " is not a recognised option name"))) ∧
    (∀ (st : APState) (pid : Nat) (pfx arg : String) (oid : Nat),
      map_get (st.parser pid).option_map
        (String.mk (arg.toList.takeWhile (fun ch => ch ≠ '='))) = some oid →
      ¬(st.opt oid).type = .flag →
      String.mk ((arg.toList.dropWhile (fun ch => ch ≠ '=')).drop 1) = "" →
      ap_handle_equals_opt st pid pfx arg =
        .error (.fatal ("missing value for the " ++ pfx ++
          String.mk (arg.toList.takeWhile (fun ch => ch ≠ '=')) ++ " option"))) ∧
    parseThen eqExSt 0 ["-o=val"] (fun st => ap_str_value st 0 "o") =
      some (.ok (.ok "val")) ∧
    ap_parse_array eqExSt 0 ["-z=val"] =
      some (.error (.fatal "-z is not a recognised option name")) := by
  refine ⟨parse_short_equals_eq, ?_, ?_, by decide, by decide⟩
  · intro st pid pfx arg hmiss
    unfold ap_handle_equals_opt
    simp only [hmiss]
  · intro st pid pfx arg oid hsome hflag hval
    unfold ap_handle_equals_opt
    simp only [hsome]
    rw [if_neg hflag, if_pos hval]

theorem claim_C9_witness :
    ap_parse_stream (0 + 1) eqExSt 0 true (String.mk ['-', 'o', '=', 'v', 'a', 'l'] :: []) =
      match ap_handle_equals_opt eqExSt 0 "-" (String.mk ['o', '=', 'v', 'a', 'l']) with
      | .ok st' => ap_parse_stream 0 st' 0 false []
      | .error e => some (.error e) :=
  claim_C9_short_equals_form.1 0 eqExSt 0 true 'o' ['=', 'v', 'a', 'l'] []
    (by decide) (by decide) (by decide)

/-- C10: an equals-form argument whose name resolves to a flag-kind
    option raises the same fatal "is not a recognised option name" error
    as a lookup miss — a flag can never be assigned with `=` — and this
    check precedes the empty-value check, so a flag given an empty
    `=value` is reported as unrecognised, not as a missing value. -/
theorem claim_C10_flag_equals_rejected :
    (∀ (st : APState) (pid : Nat) (pfx arg : String),
      map_get (st.parser pid).option_map
        (String.mk (arg.toList.takeWhile (fun ch => ch ≠ '='))) = none →
      ap_handle_equals_opt st pid pfx arg =
        .error (.fatal (pfx ++ String.mk (arg.toList.takeWhile (fun ch => ch ≠ '=')) ++
          " is not a recognised option name"))) ∧
    (∀ (st : APState) (pid : Nat) (pfx arg : String) (oid : Nat),
      map_get (st.parser pid).option_map
        (String.mk (arg.toList.takeWhile (fun ch => ch ≠ '='))) = some oid →
      (st.opt oid).type = .flag →
      ap_handle_equals_opt st pid pfx arg =
        .error (.fatal (pfx ++ String.mk (arg.toList.takeWhile (fun ch => ch ≠ '=')) ++
          " is not a recognised option name"))) ∧
    ap_parse_array eqExSt 0 ["--f="] =
      some (.error (.fatal "--f is not a recognised option name")) ∧
    ap_parse_array eqExSt 0 ["--f=x"] =
      some (.error (.fatal "--f is not a recognised option name")) := by
  refine ⟨?_, ?_, by decide, by decide⟩
  · intro st pid pfx arg hmiss
    unfold ap_handle_equals_opt
    simp only [hmiss]
  · intro st pid pfx arg oid hsome hflag
    unfold ap_handle_equals_opt
    simp only [hsome]
    rw [if_pos hflag]

theorem claim_C10_witness :
    ap_handle_equals_opt eqExSt 0 "--" "f=" =
      .error (.fatal ("--" ++ String.mk ("f=".toList.takeWhile (fun ch => ch ≠ '=')) ++
        " is not a recognised option name")) :=
  claim_C10_flag_equals_rejected.2.1 eqExSt 0 "--" "f=" 1 (by decide) (by decide)
